import Mathlib

/-!
# docker-manager: status and port-mapping reconciliation

A shallow embedding of `pkg/docker/docker.go` (the functions `GetStatus`,
`GetStatusDetailed`, `GetServiceURLs`, `portsToURLs`, `extractHostPort`,
`appendUnique`) together with the pieces of Go's `strings` package they call.

Conventions of the embedding.

* A Go `string` holding valid UTF-8 is a `List Char` (`Str`); positions are
  counted in characters.  Every separator the program searches for (`","`,
  `"\n"`, `"\t"`, `":"`, `"->"`) is ASCII, so a character position and a byte
  position select the same cut of the text.
* A Go `int` is a `Nat`: the only integers are line counts, bounded by the
  length of the text.
* A `nil` slice and an empty slice are both `[]` (the program only looks at
  `len`).
* The outcome of running an external command is a value (`CmdResult`) handed to
  the function, so that the functions are pure.
-/

namespace DockerManager

/-- A Go string (valid UTF-8), as its sequence of characters. -/
abbrev Str := List Char

/-! ## The `strings` and `unicode` functions used by the program -/

/-- Go `unicode.IsSpace`: the Latin-1 spaces `\t \n \v \f \r`, space, U+0085,
U+00A0, and the other code points with the `White_Space` property. -/
def isSpace (c : Char) : Bool :=
  let n := c.toNat
  (9 ≤ n && n ≤ 13) || n == 0x20 || n == 0x85 || n == 0xA0 || n == 0x1680 ||
    (0x2000 ≤ n && n ≤ 0x200A) || n == 0x2028 || n == 0x2029 || n == 0x202F ||
    n == 0x205F || n == 0x3000

/-- Go `strings.TrimSpace`: the text without its leading and trailing white
space. -/
def TrimSpace (s : Str) : Str :=
  (s.dropWhile isSpace).rdropWhile isSpace

/-- Go `strings.Index s sep`: the position of the first occurrence of `sep` in
`s` (`none` stands for `-1`). -/
def Index : Str → Str → Option Nat
  | [], sep => if sep = [] then some 0 else none
  | c :: s, sep =>
    if sep.isPrefixOf (c :: s) then some 0 else (Index s sep).map (· + 1)

/-- Go `strings.LastIndex s sep`: the position of the last occurrence of `sep`
in `s` (`none` stands for `-1`). -/
def LastIndex : Str → Str → Option Nat
  | [], sep => if sep = [] then some 0 else none
  | c :: s, sep =>
    match LastIndex s sep with
    | some i => some (i + 1)
    | none => if sep.isPrefixOf (c :: s) then some 0 else none

/-- Go `strings.Contains s sep`, that is `Index s sep >= 0`. -/
def Contains (s sep : Str) : Bool :=
  (Index s sep).isSome

/-- Go `strings.SplitN s sep 2`: `[s]` when `sep` does not occur in `s`, and
otherwise the text before the first occurrence and the text after it. -/
def SplitN2 (s sep : Str) : List Str :=
  match Index s sep with
  | none => [s]
  | some m => [s.take m, s.drop (m + sep.length)]

/-- Go `strings.Split s sep` for a separator of one character (the program
splits on `","` and on `"\n"` only): the pieces of `s` between the occurrences
of the separator; there is always at least one piece. -/
def Split : Str → Char → List Str
  | [], _ => [[]]
  | c :: s, sep =>
    if c = sep then [] :: Split s sep
    else
      match Split s sep with
      | [] => [[c]]
      | piece :: pieces => (c :: piece) :: pieces

/-- Go `strings.Count s sep` for a separator of one character: the number of
its occurrences in `s`. -/
def Count (s : Str) (sep : Char) : Nat :=
  s.count sep

/-! ## `portsToURLs` and `extractHostPort` -/

/-- The separator `"->"` between the host side and the container side. -/
def arrow : Str := "->".toList

/-- The constant text of `fmt.Sprintf("http://localhost:%s", port)`. -/
def urlPrefix : Str := "http://localhost:".toList

/-- `extractHostPort` (docker.go, lines 251-264). -/
def extractHostPort (hostPart : Str) : Str :=
  let hostPart := TrimSpace hostPart
  if hostPart = [] then []
  else
    match LastIndex hostPart [':'] with
    | none => []
    | some idx =>
      if idx = hostPart.length - 1 then []
      else TrimSpace (hostPart.drop (idx + 1))

/-- The body of the loop of `portsToURLs` up to the construction of the URL
(docker.go, lines 224-240): the URL that one comma-separated segment yields, or
`none` where the loop says `continue`. -/
def segmentURL (segment : Str) : Option Str :=
  let segment := TrimSpace segment
  if !Contains segment arrow then none
  else
    let parts := SplitN2 segment arrow
    if parts.length < 2 then none
    else
      let hostPart := TrimSpace (parts.headD [])
      let port := extractHostPort hostPart
      if port = [] then none
      else some (urlPrefix ++ port)

/-- The loop of `portsToURLs` (docker.go, lines 223-246) on the state
`(urls, seen)`: a URL already in `seen` is skipped, a new one is recorded in
`seen` and appended to `urls`. -/
def portsLoop : List Str → List Str × List Str → List Str × List Str
  | [], st => st
  | segment :: rest, (urls, seen) =>
    match segmentURL segment with
    | none => portsLoop rest (urls, seen)
    | some url =>
      if url ∈ seen then portsLoop rest (urls, seen)
      else portsLoop rest (urls ++ [url], url :: seen)

/-- `portsToURLs` (docker.go, lines 214-249). -/
def portsToURLs (ports : Str) : List Str :=
  let ports := TrimSpace ports
  if ports = [] then []
  else (portsLoop (Split ports ',') ([], [])).1

/-! ## `GetStatus` and `GetStatusDetailed` -/

/-- What `cmd.Output()` hands back: the captured standard output, the error
(`none` for `nil`, otherwise the text of `err.Error()`), and the text written
to the error stream. -/
structure CmdResult where
  output : Str
  err : Option Str
  stderr : Str

/-- The text of `fmt.Sprintf("%d", n)`. -/
def fmtInt (n : Nat) : Str := (Nat.repr n).toList

/-- `GetStatus` (docker.go, lines 85-104), given the outcome of the
`docker-compose ps -q` query; the third component is the returned `error`
(`none` for `nil`). -/
def GetStatus (r : CmdResult) : Bool × Nat × Option Str :=
  match r.err with
  | some _ => (false, 0, none)
  | none =>
    let containers := Count (TrimSpace r.output) '\n' + 1
    let containers := if TrimSpace r.output = [] then 0 else containers
    let running := decide (containers > 0) && decide (TrimSpace r.output ≠ [])
    (running, containers, none)

/-- `GetStatusDetailed` (docker.go, lines 107-136), given the outcome of the
`docker-compose ps -q` query. -/
def GetStatusDetailed (r : CmdResult) : Bool × Nat × Str :=
  match r.err with
  | some e =>
    let errMsg := r.stderr
    let errMsg := if errMsg = [] then e else errMsg
    (false, 0, errMsg)
  | none =>
    let containers := Count (TrimSpace r.output) '\n' + 1
    let containers := if TrimSpace r.output = [] then 0 else containers
    let running := decide (containers > 0) && decide (TrimSpace r.output ≠ [])
    let statusMsg :=
      if running then "En cours (".toList ++ fmtInt containers ++ " containers)".toList
      else "Arrêté".toList
    (running, containers, statusMsg)

/-! ## `GetServiceURLs` and `appendUnique` -/

/-- The loop over `values` of `appendUnique` (docker.go, lines 272-278) on the
state `(existing, seen)`. -/
def appendUniqueLoop : List Str → List Str × List Str → List Str × List Str
  | [], st => st
  | value :: rest, (existing, seen) =>
    if value ∈ seen then appendUniqueLoop rest (existing, seen)
    else appendUniqueLoop rest (existing ++ [value], value :: seen)

/-- `appendUnique` (docker.go, lines 266-281): `seen` starts as the set of the
elements of `existing`. -/
def appendUnique (existing values : List Str) : List Str :=
  (appendUniqueLoop values (existing, existing)).1

/-- A Go `map[string][]string`, as the list of its entries, one per key.  The
order of the entries is the order in which the keys were first stored; Go does
not let a program observe it other than through `range`. -/
abbrev URLMap := List (Str × List Str)

/-- The map read `m[k]` with the two-result form `v, ok := m[k]`. -/
def mapLookup (m : URLMap) (k : Str) : Option (List Str) :=
  m.lookup k

/-- The map read `m[k]`: the stored slice, or `nil` for a key that is absent. -/
def mapGet (m : URLMap) (k : Str) : List Str :=
  (mapLookup m k).getD []

/-- The map write `m[k] = v`. -/
def mapSet : URLMap → Str → List Str → URLMap
  | [], k, v => [(k, v)]
  | (k0, v0) :: rest, k, v =>
    if k0 = k then (k, v) :: rest else (k0, v0) :: mapSet rest k v

/-- The two fields of a line of the listing (docker.go, lines 196-201): the
line is cut at its first tab; `ports` stays empty when there is no tab. -/
def lineFields (line : Str) : Str × Str :=
  let parts := SplitN2 line ['\t']
  let serviceName := TrimSpace (parts.headD [])
  let ports := if parts.length > 1 then parts.getD 1 [] else []
  (serviceName, ports)

/-- The loop over the lines of `GetServiceURLs` (docker.go, lines 190-209). -/
def serviceLoop : List Str → URLMap → URLMap
  | [], m => m
  | line :: rest, m =>
    let line := TrimSpace line
    if line = [] then serviceLoop rest m
    else
      let serviceName := (lineFields line).1
      let ports := (lineFields line).2
      let urls := portsToURLs ports
      if urls.length = 0 then serviceLoop rest m
      else
        serviceLoop rest
          (mapSet m serviceName (appendUnique (mapGet m serviceName) urls))

/-- `GetServiceURLs` (docker.go, lines 172-212), given the outcome of the
`docker ps --filter ... --format ...` query. -/
def GetServiceURLs (r : CmdResult) : Except Str URLMap :=
  match r.err with
  | some e => .error ("erreur lors de la recuperation des ports: ".toList ++ e)
  | none => .ok (serviceLoop (Split (TrimSpace r.output) '\n') [])

/-! ## `GetServices` and the URL lines of `handleStatusProject` -/

/-- The scan of `strings.Fields`: `cur` holds, reversed, the characters of the
field being read. -/
def fieldsLoop : Str → Str → List Str
  | [], cur => if cur = [] then [] else [cur.reverse]
  | c :: s, cur =>
    if isSpace c then
      if cur = [] then fieldsLoop s [] else cur.reverse :: fieldsLoop s []
    else fieldsLoop s (c :: cur)

/-- Go `strings.Fields`: the maximal runs of characters that are not white
space. -/
def Fields (s : Str) : List Str :=
  fieldsLoop s []

/-- `GetServices` (docker.go, lines 158-169), given the outcome of the
`docker-compose config --services` query. -/
def GetServices (r : CmdResult) : Except Str (List Str) :=
  match r.err with
  | some e => .error ("erreur lors de la récupération des services: ".toList ++ e)
  | none => .ok (Fields (TrimSpace r.output))

/-- The text of `fmt.Printf("    - %s => %s\n", service, url)`. -/
def urlLine (service url : Str) : Str :=
  "    - ".toList ++ service ++ " => ".toList ++ url ++ "\n".toList

/-- The loop over the declared services (main.go, lines 323-331): the lines it
prints.  A service that has no entry in the map is passed over. -/
def declaredLoop : List Str → URLMap → List Str
  | [], _ => []
  | service :: rest, m =>
    match mapLookup m service with
    | none => declaredLoop rest m
    | some urls => urls.map (urlLine service) ++ declaredLoop rest m

/-- The loop `for service, urls := range urlsByService` (main.go, lines
333-337): the lines it prints when the entries of the map are visited in the
order `visited`. -/
def rangeLoop : URLMap → List Str
  | [] => []
  | (service, urls) :: rest => urls.map (urlLine service) ++ rangeLoop rest

/-- The part of `handleStatusProject` that prints the URLs (main.go, lines
314-340), as the list of the texts printed: the heading, then one line for each
URL.  `services` is `nil` when `GetServices` fails.  Go leaves the order in
which `range` visits a map unspecified: `rangeOrder m` is the order the run
time takes for the map `m`, some rearrangement of its entries. -/
def statusURLSection (rangeOrder : URLMap → URLMap) (declared listing : CmdResult) :
    List Str :=
  let services : List Str :=
    match GetServices declared with
    | .ok names => names
    | .error _ => []
  match GetServiceURLs listing with
  | .error _ => []
  | .ok urlsByService =>
    if urlsByService.length > 0 then
      "  URLs     :\n".toList ::
        (if services.length > 0 then declaredLoop services urlsByService
         else rangeLoop (rangeOrder urlsByService))
    else []

/-! ## `Discoverer.Discover` -/

/-- `project.Service` (project.go). -/
structure Service where
  Name : Str
  Status : Str
  Container : Str
  Ports : Str
  deriving DecidableEq

/-- `project.Project` (project.go). -/
structure Project where
  Name : Str
  Path : Str
  ComposePath : Str
  Services : List Service
  Running : Bool
  ServiceCount : Int
  deriving DecidableEq

/-- What `Discover` reads of an entry returned by `os.ReadDir`. -/
structure DirEntry where
  Name : Str
  IsDir : Bool
  deriving DecidableEq

/-- The library and system functions `Discover` relies on, whose code is not
part of the program: the Unicode table by which `unicode.ToLower` maps a
character beyond ASCII, `filepath.Join` on two elements, and whether `os.Stat`
on a path fails with an error for which `os.IsNotExist` holds. -/
structure Host where
  lowerTable : Char → Char
  join : Str → Str → Str
  statNotExist : Str → Bool

/-- Go `strings.HasPrefix`. -/
def HasPrefix (s pre : Str) : Bool :=
  pre.isPrefixOf s

/-- Go `strings.TrimPrefix`: `s` without the leading `pre`, and `s` itself when
it does not start with `pre`. -/
def TrimPrefix (s pre : Str) : Str :=
  if HasPrefix s pre then s.drop pre.length else s

/-- Go `unicode.ToLower`: an ASCII character is mapped here (`'A'`..`'Z'` are
moved by `'a' - 'A'`), any other one by the table. -/
def toLowerRune (h : Host) (c : Char) : Char :=
  if c.toNat ≤ 0x7F then
    if 'A'.toNat ≤ c.toNat ∧ c.toNat ≤ 'Z'.toNat then Char.ofNat (c.toNat + 32) else c
  else h.lowerTable c

/-- Go `strings.ToLower`: every character mapped by `unicode.ToLower`. -/
def ToLower (h : Host) (s : Str) : Str :=
  s.map (toLowerRune h)

/-- The prefix `"docker-"` of the directories that hold a project. -/
def dockerPrefix : Str := "docker-".toList

/-- The file name `"docker-compose.yml"`. -/
def composeFile : Str := "docker-compose.yml".toList

/-- The loop of `Discover` over the directory entries (discovery.go, lines
34-65), on the slice `projects`. -/
def discoverLoop (h : Host) (searchPath : Str) : List DirEntry → List Project → List Project
  | [], projects => projects
  | entry :: rest, projects =>
    if !entry.IsDir then discoverLoop h searchPath rest projects
    else if !HasPrefix entry.Name dockerPrefix then discoverLoop h searchPath rest projects
    else
      let projectPath := h.join searchPath entry.Name
      let composePath := h.join projectPath composeFile
      if h.statNotExist composePath then discoverLoop h searchPath rest projects
      else
        let projectName := ToLower h (TrimPrefix entry.Name dockerPrefix)
        let p : Project :=
          { Name := projectName, Path := projectPath, ComposePath := composePath,
            Services := [], Running := false, ServiceCount := 0 }
        discoverLoop h searchPath rest (projects ++ [p])

/-- `Discoverer.Discover` (discovery.go, lines 25-68), given what
`os.ReadDir(d.SearchPath)` returns: the entries, or an error. -/
def Discover (h : Host) (searchPath : Str) (readDir : Except Str (List DirEntry)) :
    Except Str (List Project) :=
  match readDir with
  | .error e => .error ("erreur lors de la lecture du répertoire: ".toList ++ e)
  | .ok entries => .ok (discoverLoop h searchPath entries [])

/-- A host for worked examples: no character beyond ASCII is changed, two path
elements are joined by a slash (as `filepath.Join` does for elements without
`.`, `..` or doubled slashes), and every `docker-compose.yml` is there. -/
def plainHost : Host :=
  { lowerTable := fun c => c
    join := fun a b => a ++ '/' :: b
    statNotExist := fun _ => false }

/-! ## The dashboard: `NewModel` and `Model.Update` -/

/-- `docker.Manager` (docker.go, lines 14-16). -/
structure Manager where
  WorkDir : Str
  deriving DecidableEq

/-- `tui.Model` (dashboard.go, lines 13-22). -/
structure Model where
  projects : List Project
  selected : Int
  manager : Manager
  message : Str
  width : Int
  height : Int
  loading : Bool
  lastError : Str
  deriving DecidableEq

/-- A `tea.Msg`: a key press, given by the text of `msg.String()`, a change of
the size of the window, or a value of any other type. -/
inductive Msg where
  | key (name : Str)
  | windowSize (width height : Int)
  | other
  deriving DecidableEq

/-- A `tea.Cmd` as `Update` returns it: `nil` or `tea.Quit`. -/
inductive Cmd where
  | none
  | quit
  deriving DecidableEq

/-- `NewModel` (dashboard.go, lines 25-32). -/
def NewModel (projects : List Project) (manager : Manager) : Model :=
  { projects := projects, selected := 0, manager := manager,
    message := "Bienvenue dans Docker Manager".toList,
    width := 0, height := 0, loading := false, lastError := [] }

/-- The body shared by the cases `"s"`, `"d"` and `"r"` of `Update`
(dashboard.go, lines 57-66, 69-78, 81-90).  `opErr` is the error the call to
the manager returns (`none` for `nil`) and `done` the word of the message.
Reading `m.projects[m.selected]` with a negative index stops the program:
`none`. -/
def runOnSelected (m : Model) (opErr : Option Str) (done : Str) : Option Model :=
  if m.selected < (m.projects.length : Int) then
    if m.selected < 0 then none
    else
      match m.projects.get? m.selected.toNat with
      | Option.none => none
      | some p =>
        let m := { m with loading := true }
        let m :=
          match opErr with
          | some e => { m with lastError := e }
          | Option.none =>
            { m with message := "✅ Projet ".toList ++ p.Name ++ " ".toList ++ done }
        some { m with loading := false }
  else some m

/-- `Model.Update` (dashboard.go, lines 40-99).  `opErr` is the error returned
by the manager when the key starts, stops or restarts a project.  The result is
`none` when the program stops on an index out of range. -/
def Update (m : Model) (msg : Msg) (opErr : Option Str) : Option (Model × Cmd) :=
  match msg with
  | Msg.key name =>
    if name = "ctrl+c".toList ∨ name = "q".toList then some (m, Cmd.quit)
    else if name = "up".toList ∨ name = "k".toList then
      if m.selected > 0 then some ({ m with selected := m.selected - 1 }, Cmd.none)
      else some (m, Cmd.none)
    else if name = "down".toList ∨ name = "j".toList then
      if m.selected < (m.projects.length : Int) - 1 then
        some ({ m with selected := m.selected + 1 }, Cmd.none)
      else some (m, Cmd.none)
    else if name = "s".toList then
      (runOnSelected m opErr "démarré".toList).map (fun m => (m, Cmd.none))
    else if name = "d".toList then
      (runOnSelected m opErr "arrêté".toList).map (fun m => (m, Cmd.none))
    else if name = "r".toList then
      (runOnSelected m opErr "redémarré".toList).map (fun m => (m, Cmd.none))
    else some (m, Cmd.none)
  | Msg.windowSize w h => some ({ m with width := w, height := h }, Cmd.none)
  | Msg.other => some (m, Cmd.none)

/-! ## Notions used to state the properties -/

/-- A list with every later duplicate removed: each element stays at its first
occurrence. -/
def keepFirst : List Str → List Str
  | [] => []
  | x :: xs => x :: (keepFirst xs).filter (fun y => decide (y ≠ x))

/-- The part of a clause before its first `"->"`, when it has one. -/
def hostSide (clause : Str) : Option Str :=
  (Index clause arrow).map (fun m => clause.take m)

/-- The text after the last `':'` of a text, when it has one. -/
def afterLastColon (s : Str) : Option Str :=
  (LastIndex s [':']).map (fun i => s.drop (i + 1))

/-- The service name `GetServiceURLs` reads off a line of the listing: the
first field of the trimmed line (docker.go, lines 191-197). -/
def lineService (line : Str) : Str :=
  (lineFields (TrimSpace line)).1

/-- The ports text `GetServiceURLs` reads off a line of the listing: the second
field of the trimmed line (docker.go, lines 191-201). -/
def linePorts (line : Str) : Str :=
  (lineFields (TrimSpace line)).2

/-- The accumulation both loops perform: each element of `xs` that is not yet
in the accumulator is appended to it. -/
def addNew (acc xs : List Str) : List Str :=
  xs.foldl (fun acc x => if x ∈ acc then acc else acc ++ [x]) acc

/-- The selection of the dashboard stays inside the list: index 0 when the list
is empty, and an index from 0 to `len(projects) - 1` otherwise. -/
def selectionInBounds (m : Model) : Prop :=
  (m.projects = [] → m.selected = 0) ∧
  (m.projects ≠ [] → 0 ≤ m.selected ∧ m.selected ≤ (m.projects.length : Int) - 1)

/-- The test a directory entry passes to become a project: it is a directory,
its name starts with `"docker-"`, and its `docker-compose.yml` is not reported
missing. -/
def isProjectDir (h : Host) (searchPath : Str) (e : DirEntry) : Bool :=
  e.IsDir && HasPrefix e.Name dockerPrefix &&
    !h.statNotExist (h.join (h.join searchPath e.Name) composeFile)

/-- The project record `Discover` makes of a directory entry. -/
def projectOf (h : Host) (searchPath : Str) (e : DirEntry) : Project :=
  { Name := ToLower h (TrimPrefix e.Name dockerPrefix)
    Path := h.join searchPath e.Name
    ComposePath := h.join (h.join searchPath e.Name) composeFile
    Services := [], Running := false, ServiceCount := 0 }

/-! ## Removing later duplicates -/

theorem mem_keepFirst (xs : List Str) (u : Str) : u ∈ keepFirst xs ↔ u ∈ xs := by
  induction xs with
  | nil => simp [keepFirst]
  | cons x xs ih =>
    simp only [keepFirst, List.mem_cons, List.mem_filter, ih]
    by_cases h : u = x <;> simp [h]

theorem nodup_keepFirst (xs : List Str) : (keepFirst xs).Nodup := by
  induction xs with
  | nil => simp [keepFirst]
  | cons x xs ih =>
    simp only [keepFirst, List.nodup_cons, List.mem_filter]
    exact ⟨by simp, ih.filter _⟩

theorem keepFirst_order (xs : List Str) :
    (keepFirst xs).Pairwise (fun u v => xs.indexOf u < xs.indexOf v) := by
  induction xs with
  | nil => simp [keepFirst]
  | cons x xs ih =>
    simp only [keepFirst, List.pairwise_cons]
    constructor
    · intro v hv
      have hne : v ≠ x := by simpa using (List.mem_filter.1 hv).2
      have hb : (x == v) = false := by simpa using Ne.symm hne
      simp [List.indexOf_cons, hb]
    · have hsub := ih.sublist (List.filter_sublist (keepFirst xs)
        (p := fun y => decide (y ≠ x)))
      refine hsub.imp_of_mem ?_
      intro u v hu hv huv
      have hu1 : u ≠ x := by simpa using (List.mem_filter.1 hu).2
      have hv1 : v ≠ x := by simpa using (List.mem_filter.1 hv).2
      have hbu : (x == u) = false := by simpa using Ne.symm hu1
      have hbv : (x == v) = false := by simpa using Ne.symm hv1
      simpa [List.indexOf_cons, hbu, hbv] using huv

theorem addNew_nil (acc : List Str) : addNew acc [] = acc := rfl

theorem addNew_cons (acc : List Str) (x : Str) (xs : List Str) :
    addNew acc (x :: xs) = addNew (if x ∈ acc then acc else acc ++ [x]) xs := rfl

theorem addNew_append (acc xs ys : List Str) :
    addNew acc (xs ++ ys) = addNew (addNew acc xs) ys := by
  simp [addNew, List.foldl_append]

theorem addNew_eq (acc xs : List Str) :
    addNew acc xs = acc ++ (keepFirst xs).filter (fun y => decide (y ∉ acc)) := by
  induction xs generalizing acc with
  | nil => simp [addNew_nil, keepFirst]
  | cons x xs ih =>
    rw [addNew_cons, ih]
    by_cases h : x ∈ acc
    · simp only [h, if_true, keepFirst, List.filter_cons, decide_not, decide_True,
        Bool.not_true, Bool.false_eq_true, if_false, List.filter_filter]
      congr 1
      apply List.filter_congr
      intro y _
      by_cases hy : y ∈ acc
      · simp [hy]
      · have : y ≠ x := fun e => hy (e ▸ h)
        simp [hy, this]
    · simp only [h, if_false, keepFirst, List.filter_cons, decide_not, decide_False,
        Bool.not_false, if_true, List.filter_filter, List.append_assoc, List.singleton_append]
      congr 2
      apply List.filter_congr
      intro y _
      by_cases hy : y ∈ acc <;> by_cases hx : y = x <;> simp [hy, hx]

theorem addNew_empty (xs : List Str) : addNew [] xs = keepFirst xs := by
  rw [addNew_eq]; simp

theorem keepFirst_append (xs ys : List Str) :
    keepFirst (xs ++ ys)
      = keepFirst xs ++ (keepFirst ys).filter (fun y => decide (y ∉ xs)) := by
  rw [← addNew_empty, addNew_append, addNew_empty, addNew_eq]
  congr 1
  apply List.filter_congr
  intro y _
  simp [mem_keepFirst]

/-- An accumulator without repetition is kept as it is by what it already
holds. -/
theorem addNew_keepFirst (acc xs : List Str) (h : acc.Nodup) :
    addNew acc xs = keepFirst (acc ++ xs) := by
  have h0 : keepFirst acc = acc := by
    induction acc with
    | nil => rfl
    | cons a acc ih =>
      have ha := List.nodup_cons.1 h
      simp only [keepFirst, ih ha.2]
      congr 1
      apply List.filter_eq_self.2
      intro y hy
      have : y ≠ a := fun e => ha.1 (e ▸ hy)
      simpa using this
  rw [keepFirst_append, h0, addNew_eq]

/-! ## The two loops accumulate with `addNew` -/

theorem portsLoop_fst (segs urls seen : List Str) (h : ∀ u, u ∈ seen ↔ u ∈ urls) :
    (portsLoop segs (urls, seen)).1 = addNew urls (segs.filterMap segmentURL) := by
  induction segs generalizing urls seen with
  | nil => rfl
  | cons seg rest ih =>
    cases hs : segmentURL seg with
    | none =>
      simp only [portsLoop, hs, List.filterMap_cons]
      exact ih urls seen h
    | some url =>
      simp only [portsLoop, hs, List.filterMap_cons, addNew_cons]
      by_cases hm : url ∈ seen
      · have hm2 : url ∈ urls := (h url).1 hm
        simp only [hm, hm2, if_true]
        exact ih urls seen h
      · have hm2 : url ∉ urls := fun c => hm ((h url).2 c)
        simp only [hm, hm2, if_false]
        apply ih
        intro u
        simp [h u, or_comm]

theorem appendUniqueLoop_fst (values existing seen : List Str)
    (h : ∀ u, u ∈ seen ↔ u ∈ existing) :
    (appendUniqueLoop values (existing, seen)).1 = addNew existing values := by
  induction values generalizing existing seen with
  | nil => rfl
  | cons v rest ih =>
    simp only [appendUniqueLoop, addNew_cons]
    by_cases hm : v ∈ seen
    · have hm2 : v ∈ existing := (h v).1 hm
      simp only [hm, hm2, if_true]
      exact ih existing seen h
    · have hm2 : v ∉ existing := fun c => hm ((h v).2 c)
      simp only [hm, hm2, if_false]
      apply ih
      intro u
      simp [h u, or_comm]

theorem appendUnique_eq (existing values : List Str) :
    appendUnique existing values = addNew existing values :=
  appendUniqueLoop_fst values existing existing (fun _ => Iff.rfl)

/-! ## White space at the two ends of a text -/

theorem TrimSpace_nil : TrimSpace [] = [] := rfl

theorem TrimSpace_cons_space (x : Char) (s : Str) (hx : isSpace x = true) :
    TrimSpace (x :: s) = TrimSpace s := by
  simp [TrimSpace, List.dropWhile_cons_of_pos hx]

theorem TrimSpace_cons_nonspace (x : Char) (s : Str) (hx : isSpace x = false) :
    TrimSpace (x :: s) = (x :: s).rdropWhile isSpace := by
  simp [TrimSpace, List.dropWhile_cons, hx]

theorem TrimSpace_concat_space (x : Char) (s : Str) (hx : isSpace x = true) :
    TrimSpace (s ++ [x]) = TrimSpace s := by
  induction s with
  | nil => simp [TrimSpace, List.dropWhile_cons_of_pos hx]
  | cons c s ih =>
    cases hc : isSpace c with
    | true =>
      rw [List.cons_append, TrimSpace_cons_space c _ hc, TrimSpace_cons_space c _ hc, ih]
    | false =>
      rw [List.cons_append, TrimSpace_cons_nonspace c _ hc, TrimSpace_cons_nonspace c _ hc,
        ← List.cons_append, List.rdropWhile_concat_pos _ _ _ hx]

/-- A quantity that ignores one white-space character at either end of a text
is the same on the text and on the trimmed text. -/
theorem trim_invariant {β : Type} (F : Str → β)
    (hl : ∀ x s, isSpace x = true → F (x :: s) = F s)
    (hr : ∀ x s, isSpace x = true → F (s ++ [x]) = F s) (s : Str) :
    F (TrimSpace s) = F s := by
  have h1 : ∀ t : Str, F (t.dropWhile isSpace) = F t := by
    intro t
    induction t with
    | nil => rfl
    | cons c t ih =>
      cases hc : isSpace c with
      | true => rw [List.dropWhile_cons_of_pos hc, ih, hl c t hc]
      | false => rw [List.dropWhile_cons_of_neg (by simp [hc])]
  have h2 : ∀ t : Str, F (t.rdropWhile isSpace) = F t := by
    intro t
    induction t using List.reverseRecOn with
    | nil => rfl
    | append_singleton t c ih =>
      cases hc : isSpace c with
      | true => rw [List.rdropWhile_concat_pos _ _ _ hc, ih, hr c t hc]
      | false => rw [List.rdropWhile_concat_neg _ _ _ (by simp [hc])]
  unfold TrimSpace
  rw [h2, h1]

theorem TrimSpace_idem (s : Str) : TrimSpace (TrimSpace s) = TrimSpace s :=
  trim_invariant TrimSpace TrimSpace_cons_space TrimSpace_concat_space s

/-! ## Pieces of a text and white space -/

theorem Split_ne_nil (s : Str) (c : Char) : Split s c ≠ [] := by
  cases s with
  | nil => simp [Split]
  | cons x s =>
    unfold Split
    split
    · simp
    · split <;> simp

theorem Split_cons_sep (s : Str) (c : Char) : Split (c :: s) c = [] :: Split s c := by
  simp [Split]

theorem Split_cons_ne (x : Char) (s : Str) (c : Char) (p : Str) (ps : List Str)
    (hx : x ≠ c) (h : Split s c = p :: ps) : Split (x :: s) c = (x :: p) :: ps := by
  simp [Split, hx, h]

theorem Split_concat (s : Str) (x c : Char) :
    ∃ ps p, Split s c = ps ++ [p] ∧
      Split (s ++ [x]) c = if x = c then ps ++ [p, []] else ps ++ [p ++ [x]] := by
  induction s with
  | nil =>
    refine ⟨[], [], rfl, ?_⟩
    by_cases hx : x = c <;> simp [Split, hx]
  | cons y s ih =>
    obtain ⟨ps, p, h1, h2⟩ := ih
    by_cases hy : y = c
    · subst hy
      refine ⟨[] :: ps, p, ?_, ?_⟩
      · rw [Split_cons_sep, h1]; rfl
      · rw [List.cons_append, Split_cons_sep, h2]
        by_cases hx : x = y <;> simp [hx]
    · cases ps with
      | nil =>
        refine ⟨[], y :: p, ?_, ?_⟩
        · rw [Split_cons_ne y s c p [] hy (by simpa using h1)]; rfl
        · by_cases hx : x = c
          · rw [if_pos hx] at h2 ⊢
            rw [List.cons_append, Split_cons_ne y _ c p [[]] hy (by simpa using h2)]; rfl
          · rw [if_neg hx] at h2 ⊢
            rw [List.cons_append, Split_cons_ne y _ c (p ++ [x]) [] hy (by simpa using h2)]; rfl
      | cons q qs =>
        refine ⟨(y :: q) :: qs, p, ?_, ?_⟩
        · rw [Split_cons_ne y s c q (qs ++ [p]) hy (by simpa using h1)]; rfl
        · by_cases hx : x = c
          · rw [if_pos hx] at h2 ⊢
            rw [List.cons_append, Split_cons_ne y _ c q (qs ++ [p, []]) hy (by simpa using h2)]
            rfl
          · rw [if_neg hx] at h2 ⊢
            rw [List.cons_append,
              Split_cons_ne y _ c q (qs ++ [p ++ [x]]) hy (by simpa using h2)]
            rfl

/-- The trimmed, non-empty pieces of a text are those of the trimmed text. -/
theorem pieces_TrimSpace (s : Str) (c : Char) :
    ((Split (TrimSpace s) c).map TrimSpace).filter (fun p => decide (p ≠ []))
      = ((Split s c).map TrimSpace).filter (fun p => decide (p ≠ [])) := by
  refine trim_invariant
    (fun t => ((Split t c).map TrimSpace).filter (fun p => decide (p ≠ []))) ?_ ?_ s
  · intro x t hx
    by_cases hxc : x = c
    · subst hxc
      simp [Split_cons_sep, TrimSpace_nil]
    · cases h : Split t c with
      | nil => exact absurd h (Split_ne_nil t c)
      | cons p ps =>
        show List.filter _ (List.map TrimSpace (Split (x :: t) c))
          = List.filter _ (List.map TrimSpace (Split t c))
        rw [Split_cons_ne x t c p ps hxc h, h]
        simp only [List.map_cons, TrimSpace_cons_space x p hx]
  · intro x t hx
    obtain ⟨ps, p, h1, h2⟩ := Split_concat t x c
    simp only [h1, h2]
    by_cases hxc : x = c
    · simp [hxc, TrimSpace_nil, List.filter_cons]
    · simp [hxc, TrimSpace_concat_space x p hx]

/-! ## The host side of a clause and the text after its last colon -/

theorem space_ne_minus (x : Char) (hx : isSpace x = true) : x ≠ '-' := by
  rintro rfl; exact absurd hx (by decide)

theorem space_ne_gt (x : Char) (hx : isSpace x = true) : x ≠ '>' := by
  rintro rfl; exact absurd hx (by decide)

theorem space_ne_colon (x : Char) (hx : isSpace x = true) : x ≠ ':' := by
  rintro rfl; exact absurd hx (by decide)

theorem hostSide_nil : hostSide [] = none := rfl

theorem hostSide_cons (y : Char) (s : Str) :
    hostSide (y :: s)
      = if arrow.isPrefixOf (y :: s) then some [] else (hostSide s).map (fun h => y :: h) := by
  unfold hostSide
  simp only [Index]
  split
  · rfl
  · cases Index s arrow <;> simp

theorem arrow_isPrefixOf_cons_space (x : Char) (s : Str) (hx : isSpace x = true) :
    arrow.isPrefixOf (x :: s) = false := by
  have h := space_ne_minus x hx
  simp [arrow, List.isPrefixOf, Ne.symm h]

theorem arrow_isPrefixOf_concat (y : Char) (s : Str) (x : Char) (hx : isSpace x = true) :
    arrow.isPrefixOf (y :: (s ++ [x])) = arrow.isPrefixOf (y :: s) := by
  have h := space_ne_gt x hx
  cases s with
  | nil => simp [arrow, List.isPrefixOf, Ne.symm h]
  | cons z s => simp [arrow, List.isPrefixOf]

theorem hostSide_cons_space (x : Char) (s : Str) (hx : isSpace x = true) :
    hostSide (x :: s) = (hostSide s).map (fun h => x :: h) := by
  rw [hostSide_cons, arrow_isPrefixOf_cons_space x s hx]; rfl

theorem hostSide_concat_space (x : Char) (s : Str) (hx : isSpace x = true) :
    hostSide (s ++ [x]) = hostSide s := by
  induction s with
  | nil =>
    rw [List.nil_append, hostSide_cons_space x [] hx]; rfl
  | cons y s ih =>
    rw [List.cons_append, hostSide_cons, hostSide_cons, arrow_isPrefixOf_concat y s x hx, ih]

/-- The trimmed host side of a clause is that of the trimmed clause. -/
theorem hostSide_TrimSpace (c : Str) :
    (hostSide (TrimSpace c)).map TrimSpace = (hostSide c).map TrimSpace := by
  refine trim_invariant (fun t => (hostSide t).map TrimSpace) ?_ ?_ c
  · intro x t hx
    show (hostSide (x :: t)).map TrimSpace = (hostSide t).map TrimSpace
    rw [hostSide_cons_space x t hx]
    cases hostSide t with
    | none => rfl
    | some h => simp [TrimSpace_cons_space x h hx]
  · intro x t hx
    show (hostSide (t ++ [x])).map TrimSpace = (hostSide t).map TrimSpace
    rw [hostSide_concat_space x t hx]

theorem afterLastColon_nil : afterLastColon [] = none := rfl

theorem afterLastColon_cons (y : Char) (s : Str) :
    afterLastColon (y :: s)
      = match afterLastColon s with
        | some p => some p
        | none => if y = ':' then some s else none := by
  unfold afterLastColon
  simp only [LastIndex]
  cases h : LastIndex s [':'] with
  | some i => simp
  | none =>
    by_cases hy : y = ':'
    · subst hy; simp [List.isPrefixOf]
    · have : (':' == y) = false := by simpa using Ne.symm hy
      simp [List.isPrefixOf, hy, this]

theorem afterLastColon_cons_space (x : Char) (s : Str) (hx : isSpace x = true) :
    afterLastColon (x :: s) = afterLastColon s := by
  rw [afterLastColon_cons]
  cases afterLastColon s with
  | some p => rfl
  | none => simp [space_ne_colon x hx]

theorem afterLastColon_concat (x : Char) (s : Str) (hx : x ≠ ':') :
    afterLastColon (s ++ [x]) = (afterLastColon s).map (fun p => p ++ [x]) := by
  induction s with
  | nil =>
    rw [List.nil_append, afterLastColon_cons]
    simp [afterLastColon_nil, hx]
  | cons y s ih =>
    rw [List.cons_append, afterLastColon_cons, afterLastColon_cons, ih]
    cases afterLastColon s with
    | some p => rfl
    | none =>
      by_cases hy : y = ':' <;> simp [hy]

theorem afterLastColon_concat_colon (s : Str) : afterLastColon (s ++ [':']) = some [] := by
  induction s with
  | nil => rfl
  | cons y s ih => rw [List.cons_append, afterLastColon_cons, ih]

theorem afterLastColon_eq_none (s : Str) : afterLastColon s = none ↔ ':' ∉ s := by
  induction s with
  | nil => simp [afterLastColon_nil]
  | cons y s ih =>
    rw [afterLastColon_cons]
    cases h : afterLastColon s with
    | some p =>
      have : ¬ (':' ∉ s) := fun c => by simpa [h] using ih.2 c
      simp only [List.mem_cons, not_or]
      constructor
      · intro c; cases c
      · intro c; exact absurd c.2 this
    | none =>
      have h2 := ih.1 h
      by_cases hy : y = ':'
      · simp [hy]
      · simp [hy, h2, Ne.symm hy]

/-- The trimmed text after the last colon is the same for a text and for the
trimmed text. -/
theorem afterLastColon_TrimSpace (h : Str) :
    (afterLastColon (TrimSpace h)).map TrimSpace = (afterLastColon h).map TrimSpace := by
  refine trim_invariant (fun t => (afterLastColon t).map TrimSpace) ?_ ?_ h
  · intro x t hx
    show (afterLastColon (x :: t)).map TrimSpace = (afterLastColon t).map TrimSpace
    rw [afterLastColon_cons_space x t hx]
  · intro x t hx
    show (afterLastColon (t ++ [x])).map TrimSpace = (afterLastColon t).map TrimSpace
    rw [afterLastColon_concat x t (space_ne_colon x hx)]
    cases afterLastColon t with
    | none => rfl
    | some p => simp [TrimSpace_concat_space x p hx]

/-! ## What one clause yields -/

theorem extractHostPort_eq (h : Str) :
    extractHostPort h = ((afterLastColon h).map TrimSpace).getD [] := by
  rw [← afterLastColon_TrimSpace h]
  unfold extractHostPort
  generalize TrimSpace h = t
  simp only
  by_cases ht : t = []
  · subst ht; rfl
  · rw [if_neg ht]
    unfold afterLastColon
    cases hI : LastIndex t [':'] with
    | none => rfl
    | some idx =>
      simp only [Option.map_some', Option.getD_some]
      by_cases hi : idx = t.length - 1
      · have hlen : 0 < t.length := List.length_pos.2 ht
        have : t.drop (idx + 1) = [] := List.drop_eq_nil_of_le (by omega)
        rw [if_pos hi, this]; rfl
      · rw [if_neg hi]

theorem extractHostPort_TrimSpace (h : Str) :
    extractHostPort (TrimSpace h) = extractHostPort h := by
  rw [extractHostPort_eq, extractHostPort_eq, afterLastColon_TrimSpace]

/-- The URL a clause yields, read off the clause itself: the clause needs a
`"->"`, the text before the first one needs a `':'`, and the trimmed text
after the last `':'` is the port. -/
theorem segmentURL_eq (c : Str) :
    segmentURL c
      = (hostSide c).bind (fun h => (afterLastColon h).bind (fun p =>
          if TrimSpace p = [] then none else some (urlPrefix ++ TrimSpace p))) := by
  have key := hostSide_TrimSpace c
  unfold segmentURL
  generalize TrimSpace c = seg at key
  simp only [Contains, SplitN2]
  unfold hostSide at key
  cases hI : Index seg arrow with
  | none =>
    rw [hI] at key
    cases hc : Index c arrow with
    | none => simp [hostSide, hc]
    | some m => rw [hc] at key; cases key
  | some m =>
    rw [hI] at key
    cases hc : Index c arrow with
    | none => rw [hc] at key; cases key
    | some k =>
      rw [hc] at key
      simp only [Option.map_some', Option.some.injEq] at key
      simp only [Option.isSome_some, Bool.not_true, Bool.false_eq_true, if_false,
        List.length_cons, List.length_nil, List.headD_cons, hostSide, hc, Option.map_some',
        Option.some_bind]
      rw [key, extractHostPort_TrimSpace, extractHostPort_eq]
      cases afterLastColon (List.take k c) with
      | none => simp
      | some p => simp

theorem segmentURL_TrimSpace (c : Str) : segmentURL (TrimSpace c) = segmentURL c := by
  unfold segmentURL
  rw [TrimSpace_idem]

theorem segmentURL_nil : segmentURL [] = none := rfl

theorem filterMap_segmentURL_pieces (segs : List Str) :
    (((segs.map TrimSpace).filter (fun p => decide (p ≠ []))).filterMap segmentURL)
      = segs.filterMap segmentURL := by
  induction segs with
  | nil => rfl
  | cons a segs ih =>
    by_cases ha : TrimSpace a = []
    · have : segmentURL a = none := by rw [← segmentURL_TrimSpace, ha]; rfl
      simp only [decide_not] at ih
      simp [List.filter_cons, ha, this, ih]
    · simp only [decide_not] at ih
      simp [List.filter_cons, ha, segmentURL_TrimSpace, ih, List.filterMap_cons]

/-- The list `portsToURLs` returns: the URLs of the comma-separated clauses of
the raw text, in clause order, each kept at its first occurrence. -/
theorem portsToURLs_eq (raw : Str) :
    portsToURLs raw = keepFirst ((Split raw ',').filterMap segmentURL) := by
  rw [← filterMap_segmentURL_pieces (Split raw ','), ← pieces_TrimSpace raw ',',
    filterMap_segmentURL_pieces]
  unfold portsToURLs
  simp only
  by_cases h : TrimSpace raw = []
  · rw [if_pos h, h]; rfl
  · rw [if_neg h, portsLoop_fst _ _ _ (fun _ => Iff.rfl), addNew_empty]

theorem keepFirst_filterMap_order {α : Type} (f : α → Option Str) (l : List α) :
    (keepFirst (l.filterMap f)).Pairwise
      (fun u v => (l.map f).indexOf (some u) < (l.map f).indexOf (some v)) := by
  induction l with
  | nil => simp [keepFirst]
  | cons a l ih =>
    cases ha : f a with
    | none =>
      simp only [List.filterMap_cons, ha, List.map_cons]
      refine ih.imp ?_
      intro u v huv
      simpa [List.indexOf_cons] using huv
    | some x =>
      simp only [List.filterMap_cons, ha, List.map_cons, keepFirst, List.pairwise_cons]
      constructor
      · intro v hv
        have hne : v ≠ x := by simpa using (List.mem_filter.1 hv).2
        have hb : (some x == some v) = false := by simpa using Ne.symm hne
        simp [List.indexOf_cons, hb]
      · have hsub := ih.sublist (List.filter_sublist (keepFirst (l.filterMap f))
          (p := fun y => decide (y ≠ x)))
        refine hsub.imp_of_mem ?_
        intro u v hu hv huv
        have hu1 : u ≠ x := by simpa using (List.mem_filter.1 hu).2
        have hv1 : v ≠ x := by simpa using (List.mem_filter.1 hv).2
        have hbu : (some x == some u) = false := by simpa using Ne.symm hu1
        have hbv : (some x == some v) = false := by simpa using Ne.symm hv1
        simpa [List.indexOf_cons, hbu, hbv] using huv

/-! ## The port-mapping parser: C1, C2, C3 -/

/-- C1: for every raw port-mapping string the list `portsToURLs` returns has
no repeated URL, holds exactly the URLs that the comma-separated clauses yield,
and lists them in the order of the first clause that yields each of them (the
position of that clause is the first position of `some u` among the results of
the clauses); the two bindings of port 8080 in
`"0.0.0.0:8080->80/tcp, [::]:8080->80/tcp"` collapse to the single URL
`http://localhost:8080`. -/
theorem portsToURLs_first_seen_order (raw : Str) :
    (portsToURLs raw).Nodup ∧
    (∀ u, u ∈ portsToURLs raw ↔ ∃ c ∈ Split raw ',', segmentURL c = some u) ∧
    (portsToURLs raw).Pairwise (fun u v =>
      ((Split raw ',').map segmentURL).indexOf (some u)
        < ((Split raw ',').map segmentURL).indexOf (some v)) ∧
    portsToURLs "0.0.0.0:8080->80/tcp, [::]:8080->80/tcp".toList
      = ["http://localhost:8080".toList] := by
  refine ⟨?_, ?_, ?_, by decide⟩
  · rw [portsToURLs_eq]; exact nodup_keepFirst _
  · intro u
    rw [portsToURLs_eq, mem_keepFirst, List.mem_filterMap]
  · rw [portsToURLs_eq]; exact keepFirst_filterMap_order segmentURL _

/-- C2, as the code has it: when some comma-separated clause of the raw text
has a `"->"`, a `':'` in the text before its first `"->"`, and text after the
last such `':'` that is not only white space, `portsToURLs` returns a non-empty
list; and every element of the result is `"http://localhost:"` followed by the
white-space-trimmed text after the last `':'` of the part of some clause before
its first `"->"`.  (Such a raw text is never empty.) -/
theorem portsToURLs_well_formed (raw : Str)
    (h : ∃ c ∈ Split raw ',', ∃ hs p, hostSide c = some hs ∧ afterLastColon hs = some p ∧
      TrimSpace p ≠ []) :
    raw ≠ [] ∧ portsToURLs raw ≠ [] ∧
    ∀ u ∈ portsToURLs raw, ∃ c ∈ Split raw ',', ∃ hs p,
      hostSide c = some hs ∧ afterLastColon hs = some p ∧ TrimSpace p ≠ [] ∧
        u = urlPrefix ++ TrimSpace p := by
  have hmem : ∀ u, u ∈ portsToURLs raw ↔ ∃ c ∈ Split raw ',', segmentURL c = some u := by
    intro u
    rw [portsToURLs_eq, mem_keepFirst, List.mem_filterMap]
  refine ⟨?_, ?_, ?_⟩
  · rintro rfl
    obtain ⟨c, hc, hs, p, h1, _, _⟩ := h
    have : c = [] := by simpa [Split] using hc
    subst this
    cases h1
  · obtain ⟨c, hc, hs, p, h1, h2, h3⟩ := h
    have hu : urlPrefix ++ TrimSpace p ∈ portsToURLs raw := by
      rw [hmem]
      exact ⟨c, hc, by simp [segmentURL_eq, h1, h2, h3]⟩
    exact List.ne_nil_of_mem hu
  · intro u hu
    obtain ⟨c, hc, hcu⟩ := (hmem u).1 hu
    rw [segmentURL_eq] at hcu
    cases h1 : hostSide c with
    | none => simp [h1] at hcu
    | some hs =>
      cases h2 : afterLastColon hs with
      | none => simp [h1, h2] at hcu
      | some p =>
        by_cases h3 : TrimSpace p = []
        · simp [h1, h2, h3] at hcu
        · refine ⟨c, hc, hs, p, h1, h2, h3, ?_⟩
          simpa [h1, h2, h3] using hcu.symm

/-- C3: `portsToURLs` is a total function, and it returns the empty list
whenever every comma-separated clause of the raw text either lacks `"->"` or
has a host side (the text before its first `"->"`) with no `':'` or with `':'`
as its last character. -/
theorem portsToURLs_no_usable_clause (raw : Str)
    (h : ∀ c ∈ Split raw ',', Contains c arrow = false ∨
      ∀ hs ∈ hostSide c, ':' ∉ hs ∨ hs.getLast? = some ':') :
    portsToURLs raw = [] := by
  rw [portsToURLs_eq]
  have : (Split raw ',').filterMap segmentURL = [] := by
    rw [List.filterMap_eq_nil_iff]
    intro c hc
    rw [segmentURL_eq]
    cases h1 : hostSide c with
    | none => rfl
    | some hs =>
      rcases h c hc with hno | hcol
      · have : hostSide c = none := by
          unfold Contains at hno
          unfold hostSide
          cases hI : Index c arrow with
          | none => rfl
          | some m => simp [hI] at hno
        rw [this] at h1; cases h1
      · rcases hcol hs (by simp [h1]) with hnc | hlast
        · simp [(afterLastColon_eq_none hs).2 hnc]
        · obtain ⟨ys, rfl⟩ := List.getLast?_eq_some_iff.1 hlast
          simp [afterLastColon_concat_colon, TrimSpace_nil]
  rw [this]; rfl

/-- The hypothesis of `portsToURLs_well_formed` holds of the dual-stack
listing, whose first clause has host side `0.0.0.0:8080` and port `8080`. -/
theorem portsToURLs_well_formed_witness :
    (∃ c ∈ Split "0.0.0.0:8080->80/tcp, [::]:8080->80/tcp".toList ',', ∃ hs p,
      hostSide c = some hs ∧ afterLastColon hs = some p ∧ TrimSpace p ≠ []) ∧
    portsToURLs "0.0.0.0:8080->80/tcp, [::]:8080->80/tcp".toList ≠ [] ∧
    ∀ u ∈ portsToURLs "0.0.0.0:8080->80/tcp, [::]:8080->80/tcp".toList,
      ∃ c ∈ Split "0.0.0.0:8080->80/tcp, [::]:8080->80/tcp".toList ',', ∃ hs p,
        hostSide c = some hs ∧ afterLastColon hs = some p ∧ TrimSpace p ≠ [] ∧
          u = urlPrefix ++ TrimSpace p :=
  have hyp : ∃ c ∈ Split "0.0.0.0:8080->80/tcp, [::]:8080->80/tcp".toList ',', ∃ hs p,
      hostSide c = some hs ∧ afterLastColon hs = some p ∧ TrimSpace p ≠ [] :=
    ⟨"0.0.0.0:8080->80/tcp".toList, by decide, "0.0.0.0:8080".toList, "8080".toList,
      by decide, by decide, by decide⟩
  ⟨hyp, (portsToURLs_well_formed _ hyp).2⟩

/-- C2 as it is written fails on white space around the port.  In
`"0.0.0.0: ->80/tcp"` the host side `"0.0.0.0: "` has a `':'` followed by the
non-empty text `" "`, yet no URL is returned.  In `"0.0.0.0:80 ->80/tcp"` the
text after the last `':'` of the host side is `"80 "`, and the URL returned is
`http://localhost:80`, which is not `"http://localhost:"` followed by the text
after the last `':'` of the host side of any clause. -/
theorem portsToURLs_port_verbatim_fails :
    (portsToURLs "0.0.0.0: ->80/tcp".toList = [] ∧
      ¬ ((∃ c ∈ Split "0.0.0.0: ->80/tcp".toList ',', ∃ hs p,
            hostSide c = some hs ∧ afterLastColon hs = some p ∧ p ≠ []) →
          portsToURLs "0.0.0.0: ->80/tcp".toList ≠ [])) ∧
    (portsToURLs "0.0.0.0:80 ->80/tcp".toList = ["http://localhost:80".toList] ∧
      ¬ (∀ u ∈ portsToURLs "0.0.0.0:80 ->80/tcp".toList,
          ∃ c ∈ Split "0.0.0.0:80 ->80/tcp".toList ',', ∃ hs p,
            hostSide c = some hs ∧ afterLastColon hs = some p ∧ u = urlPrefix ++ p)) := by
  refine ⟨⟨by decide, fun h => ?_⟩, ⟨by decide, fun h => ?_⟩⟩
  · exact h ⟨"0.0.0.0: ->80/tcp".toList, by decide, "0.0.0.0: ".toList, " ".toList,
      by decide, by decide, by decide⟩ (by decide)
  · have e1 : portsToURLs "0.0.0.0:80 ->80/tcp".toList = ["http://localhost:80".toList] := by
      decide
    have e2 : Split "0.0.0.0:80 ->80/tcp".toList ',' = ["0.0.0.0:80 ->80/tcp".toList] := by
      decide
    have e3 : hostSide "0.0.0.0:80 ->80/tcp".toList = some "0.0.0.0:80 ".toList := by decide
    have e4 : afterLastColon "0.0.0.0:80 ".toList = some "80 ".toList := by decide
    obtain ⟨c, hc, hs, p, h1, h2, h3⟩ := h "http://localhost:80".toList (by rw [e1]; simp)
    rw [e2, List.mem_singleton] at hc
    subst hc
    rw [e3] at h1
    cases h1
    rw [e4] at h2
    cases h2
    revert h3
    decide

/-- The four texts named by C3 have no usable clause, so
`portsToURLs_no_usable_clause` gives the empty list for each. -/
theorem portsToURLs_no_usable_clause_witness :
    portsToURLs "".toList = [] ∧ portsToURLs "   ".toList = [] ∧
    portsToURLs "80/tcp".toList = [] ∧ portsToURLs "0.0.0.0->80/tcp".toList = [] :=
  ⟨portsToURLs_no_usable_clause _ (by decide), portsToURLs_no_usable_clause _ (by decide),
    portsToURLs_no_usable_clause _ (by decide), portsToURLs_no_usable_clause _ (by decide)⟩

/-! ## The status reconciler: C4, C5, C6, C7 -/

theorem Split_length (s : Str) (c : Char) : (Split s c).length = Count s c + 1 := by
  unfold Count
  induction s with
  | nil => rfl
  | cons x s ih =>
    by_cases hx : x = c
    · subst hx
      simp [Split_cons_sep, ih]
    · cases h : Split s c with
      | nil => exact absurd h (Split_ne_nil s c)
      | cons p ps =>
        rw [Split_cons_ne x s c p ps hx h, List.count_cons_of_ne (Ne.symm hx), ← ih, h]
        rfl

/-- C4, as the code has it: for every output of a successful query both
variants return the same count, which is 0 when the trimmed output is empty and
otherwise the number of newline-delimited tokens of the trimmed output, empty
tokens included; this is the number of non-empty tokens whenever the trimmed
output is empty or none of its tokens is.  `"id1\nid2\nid3"` gives count 3 and
running, `""` gives count 0 and not running. -/
theorem status_count (out stderr : Str) :
    (GetStatus ⟨out, none, stderr⟩).2.1
      = (if TrimSpace out = [] then 0 else (Split (TrimSpace out) '\n').length) ∧
    (GetStatusDetailed ⟨out, none, stderr⟩).2.1
      = (if TrimSpace out = [] then 0 else (Split (TrimSpace out) '\n').length) ∧
    ((TrimSpace out = [] ∨ ∀ t ∈ Split (TrimSpace out) '\n', t ≠ []) →
      (GetStatus ⟨out, none, stderr⟩).2.1
        = ((Split (TrimSpace out) '\n').filter (fun t => decide (t ≠ []))).length) ∧
    ((GetStatus ⟨"id1\nid2\nid3".toList, none, stderr⟩).1 = true ∧
      (GetStatus ⟨"id1\nid2\nid3".toList, none, stderr⟩).2.1 = 3 ∧
      (GetStatusDetailed ⟨"id1\nid2\nid3".toList, none, stderr⟩).1 = true ∧
      (GetStatusDetailed ⟨"id1\nid2\nid3".toList, none, stderr⟩).2.1 = 3) ∧
    ((GetStatus ⟨"".toList, none, stderr⟩).1 = false ∧
      (GetStatus ⟨"".toList, none, stderr⟩).2.1 = 0 ∧
      (GetStatusDetailed ⟨"".toList, none, stderr⟩).1 = false ∧
      (GetStatusDetailed ⟨"".toList, none, stderr⟩).2.1 = 0) := by
  have h1 : (GetStatus ⟨out, none, stderr⟩).2.1
      = (if TrimSpace out = [] then 0 else (Split (TrimSpace out) '\n').length) := by
    simp only [GetStatus, Split_length]
  refine ⟨h1, ?_, ?_, ⟨rfl, rfl, rfl, rfl⟩, ⟨rfl, rfl, rfl, rfl⟩⟩
  · simp only [GetStatusDetailed, Split_length]
  · intro h
    rw [h1]
    rcases h with h | h
    · rw [if_pos h, h]; rfl
    · have hne : TrimSpace out ≠ [] := by
        intro e
        rw [e] at h
        exact h [] (by simp [Split]) rfl
      rw [if_neg hne, List.filter_eq_self.2 (fun t ht => by simpa using h t ht)]

/-- The hypothesis in the third part of `status_count` holds of the output
`"id1\nid2\nid3"`, which has three tokens, none empty. -/
theorem status_count_witness :
    (GetStatus ⟨"id1\nid2\nid3".toList, none, []⟩).2.1
      = ((Split (TrimSpace "id1\nid2\nid3".toList) '\n').filter
          (fun t => decide (t ≠ []))).length :=
  (status_count "id1\nid2\nid3".toList []).2.2.1 (Or.inr (by decide))

/-- C4 as it is written fails on an output with an empty line inside: the
trimmed output `"id1\n\nid2"` has two non-empty newline-delimited tokens, and
both variants return the count 3. -/
theorem status_count_empty_line :
    ((Split (TrimSpace "id1\n\nid2".toList) '\n').filter (fun t => decide (t ≠ []))).length = 2 ∧
    (GetStatus ⟨"id1\n\nid2".toList, none, []⟩).2.1 = 3 ∧
    (GetStatusDetailed ⟨"id1\n\nid2".toList, none, []⟩).2.1 = 3 ∧
    (GetStatus ⟨"id1\n\nid2".toList, none, []⟩).2.1
      ≠ ((Split (TrimSpace "id1\n\nid2".toList) '\n').filter
          (fun t => decide (t ≠ []))).length := by
  decide

/-- C5: for every outcome of the query, failed or not, `GetStatus` and
`GetStatusDetailed` return `running = true` exactly when the count they return
is greater than 0. -/
theorem status_running_iff_count_pos (r : CmdResult) :
    ((GetStatus r).1 = true ↔ (GetStatus r).2.1 > 0) ∧
    ((GetStatusDetailed r).1 = true ↔ (GetStatusDetailed r).2.1 > 0) := by
  obtain ⟨out, err, stderr⟩ := r
  cases err with
  | some e => simp [GetStatus, GetStatusDetailed]
  | none =>
    by_cases h : TrimSpace out = [] <;> simp [GetStatus, GetStatusDetailed, h]

/-- C6: the error result of `GetStatus` is `nil` for every outcome of the
query, and when the query fails (whatever its error, output and error stream)
the result is exactly `(false, 0, nil)`. -/
theorem GetStatus_never_errors (out stderr : Str) (err : Option Str) (e : Str) :
    (GetStatus ⟨out, err, stderr⟩).2.2 = none ∧
    GetStatus ⟨out, some e, stderr⟩ = (false, 0, none) := by
  cases err <;> simp [GetStatus]

/-- C7: when the query fails with error message `e`, `GetStatusDetailed`
returns `running = false`, count 0, and as detail the captured error-stream
text when that text is not empty, and `e` when it is empty. -/
theorem GetStatusDetailed_failure (out stderr e : Str) :
    (GetStatusDetailed ⟨out, some e, stderr⟩).1 = false ∧
    (GetStatusDetailed ⟨out, some e, stderr⟩).2.1 = 0 ∧
    (GetStatusDetailed ⟨out, some e, stderr⟩).2.2 = (if stderr = [] then e else stderr) ∧
    (stderr ≠ [] → (GetStatusDetailed ⟨out, some e, stderr⟩).2.2 = stderr) ∧
    (stderr = [] → (GetStatusDetailed ⟨out, some e, stderr⟩).2.2 = e) := by
  refine ⟨rfl, rfl, rfl, ?_, ?_⟩
  · intro h; simp [GetStatusDetailed, h]
  · intro h; simp [GetStatusDetailed, h]

/-- A failed query whose error stream says `no configuration file provided`
surfaces that text; with an empty error stream the execution error
`exit status 1` is surfaced. -/
theorem GetStatusDetailed_failure_witness :
    (GetStatusDetailed ⟨[], some "exit status 1".toList,
        "no configuration file provided".toList⟩).2.2
      = "no configuration file provided".toList ∧
    (GetStatusDetailed ⟨[], some "exit status 1".toList, []⟩).2.2 = "exit status 1".toList :=
  ⟨(GetStatusDetailed_failure [] "no configuration file provided".toList
      "exit status 1".toList).2.2.2.1 (by decide),
    (GetStatusDetailed_failure [] [] "exit status 1".toList).2.2.2.2 rfl⟩

/-! ## Reads and writes of the map -/

theorem mapLookup_mapSet (m : URLMap) (k : Str) (v : List Str) (name : Str) :
    mapLookup (mapSet m k v) name = if name = k then some v else mapLookup m name := by
  induction m with
  | nil =>
    by_cases h : name = k
    · subst h; simp [mapSet, mapLookup, List.lookup]
    · have hb : (name == k) = false := by simpa using h
      simp [mapSet, mapLookup, List.lookup, h, hb]
  | cons e m ih =>
    obtain ⟨k0, v0⟩ := e
    unfold mapLookup at ih ⊢
    by_cases h0 : k0 = k
    · subst h0
      by_cases h : name = k0
      · subst h; simp [mapSet, List.lookup]
      · have hb : (name == k0) = false := by simpa using h
        simp [mapSet, List.lookup, h, hb]
    · by_cases h : name = k
      · subst h
        have hb : (name == k0) = false := by simpa using Ne.symm h0
        simp [mapSet, List.lookup, h0, hb, ih]
      · by_cases h1 : name = k0
        · subst h1; simp [mapSet, List.lookup, h0, h]
        · have hb : (name == k0) = false := by simpa using h1
          simp [mapSet, List.lookup, h0, hb, ih, h]

theorem mapGet_mapSet (m : URLMap) (k : Str) (v : List Str) (name : Str) :
    mapGet (mapSet m k v) name = if name = k then v else mapGet m name := by
  unfold mapGet
  rw [mapLookup_mapSet]
  by_cases h : name = k <;> simp [h]

/-! ## The loop over the lines of the listing -/

theorem serviceLoop_nil (m : URLMap) : serviceLoop [] m = m := rfl

/-- One iteration of the loop, in terms of the two fields of the line. -/
theorem serviceLoop_cons (l : Str) (rest : List Str) (m : URLMap) :
    serviceLoop (l :: rest) m
      = if portsToURLs (linePorts l) = [] then serviceLoop rest m
        else serviceLoop rest (mapSet m (lineService l)
          (appendUnique (mapGet m (lineService l)) (portsToURLs (linePorts l)))) := by
  unfold lineService linePorts
  by_cases ht : TrimSpace l = []
  · have : portsToURLs (lineFields []).2 = [] := by decide
    simp [serviceLoop, ht, this]
  · simp [serviceLoop, ht]

theorem linePorts_TrimSpace (l : Str) : linePorts (TrimSpace l) = linePorts l := by
  unfold linePorts; rw [TrimSpace_idem]

theorem lineService_TrimSpace (l : Str) : lineService (TrimSpace l) = lineService l := by
  unfold lineService; rw [TrimSpace_idem]

theorem linePorts_of_blank (l : Str) (h : TrimSpace l = []) : portsToURLs (linePorts l) = [] := by
  unfold linePorts; rw [h]; decide

theorem serviceLoop_pieces (lines : List Str) (m : URLMap) :
    serviceLoop ((lines.map TrimSpace).filter (fun p => decide (p ≠ []))) m
      = serviceLoop lines m := by
  induction lines generalizing m with
  | nil => rfl
  | cons l lines ih =>
    by_cases ht : TrimSpace l = []
    · have h1 : ((l :: lines).map TrimSpace).filter (fun p => decide (p ≠ []))
          = (lines.map TrimSpace).filter (fun p => decide (p ≠ [])) := by
        simp [List.filter_cons, ht]
      rw [h1, ih, serviceLoop_cons l, if_pos (linePorts_of_blank l ht)]
    · have h1 : ((l :: lines).map TrimSpace).filter (fun p => decide (p ≠ []))
          = TrimSpace l :: (lines.map TrimSpace).filter (fun p => decide (p ≠ [])) := by
        simp [List.filter_cons, ht]
      rw [h1, serviceLoop_cons, serviceLoop_cons l, linePorts_TrimSpace, lineService_TrimSpace,
        ih, ih]

/-- The map `GetServiceURLs` returns is the one the loop builds from the lines
of the output as it stands, trimmed or not. -/
theorem GetServiceURLs_ok (out stderr : Str) :
    GetServiceURLs ⟨out, none, stderr⟩ = .ok (serviceLoop (Split out '\n') []) := by
  unfold GetServiceURLs
  simp only
  rw [← serviceLoop_pieces (Split (TrimSpace out) '\n'), pieces_TrimSpace, serviceLoop_pieces]

/-- The URLs of the lines of a service, in line order. -/
theorem serviceLoop_mapGet (lines : List Str) (m : URLMap) (name : Str) :
    mapGet (serviceLoop lines m) name
      = addNew (mapGet m name)
          ((lines.filter (fun l => decide (lineService l = name))).flatMap
            (fun l => portsToURLs (linePorts l))) := by
  induction lines generalizing m with
  | nil => rfl
  | cons l lines ih =>
    rw [serviceLoop_cons]
    by_cases hu : portsToURLs (linePorts l) = []
    · rw [if_pos hu, ih]
      by_cases hn : lineService l = name
      · simp [List.filter_cons, hn, hu]
      · simp [List.filter_cons, hn]
    · rw [if_neg hu, ih, mapGet_mapSet]
      by_cases hn : lineService l = name
      · subst hn
        simp [List.filter_cons, appendUnique_eq, addNew_append]
      · rw [if_neg (Ne.symm hn)]
        simp [List.filter_cons, hn]

theorem addNew_ne_nil (acc xs : List Str) (h : acc ≠ [] ∨ xs ≠ []) : addNew acc xs ≠ [] := by
  rw [addNew_eq]
  rcases h with h | h
  · simp [h]
  · cases xs with
    | nil => exact absurd rfl h
    | cons x xs =>
      by_cases hx : x ∈ acc
      · exact fun e => by simp [List.append_eq_nil] at e; rw [e.1] at hx; cases hx
      · simp [keepFirst, List.filter_cons, hx]

theorem serviceLoop_lookup_none (lines : List Str) (m : URLMap) (name : Str) :
    mapLookup (serviceLoop lines m) name = none ↔
      mapLookup m name = none ∧
        (lines.filter (fun l => decide (lineService l = name))).flatMap
          (fun l => portsToURLs (linePorts l)) = [] := by
  induction lines generalizing m with
  | nil => simp [serviceLoop_nil]
  | cons l lines ih =>
    rw [serviceLoop_cons]
    by_cases hu : portsToURLs (linePorts l) = []
    · rw [if_pos hu, ih]
      by_cases hn : lineService l = name
      · simp [List.filter_cons, hn, hu]
      · simp [List.filter_cons, hn]
    · rw [if_neg hu, ih, mapLookup_mapSet]
      by_cases hn : lineService l = name
      · subst hn
        simp [List.filter_cons, hu]
      · rw [if_neg (Ne.symm hn)]
        simp [List.filter_cons, hn]

theorem serviceLoop_nonempty (lines : List Str) (m : URLMap)
    (hm : ∀ name urls, mapLookup m name = some urls → urls ≠ []) :
    ∀ name urls, mapLookup (serviceLoop lines m) name = some urls → urls ≠ [] := by
  induction lines generalizing m with
  | nil => exact hm
  | cons l lines ih =>
    rw [serviceLoop_cons]
    by_cases hu : portsToURLs (linePorts l) = []
    · rw [if_pos hu]; exact ih m hm
    · rw [if_neg hu]
      apply ih
      intro name urls h
      rw [mapLookup_mapSet] at h
      by_cases hn : name = lineService l
      · rw [if_pos hn] at h
        cases h
        rw [appendUnique_eq]
        exact addNew_ne_nil _ _ (Or.inr hu)
      · rw [if_neg hn] at h
        exact hm name urls h

theorem serviceLoop_skip (pre : List Str) (l : Str) (post : List Str) (m : URLMap)
    (h : portsToURLs (linePorts l) = []) :
    serviceLoop (pre ++ l :: post) m = serviceLoop (pre ++ post) m := by
  induction pre generalizing m with
  | nil => rw [List.nil_append, List.nil_append, serviceLoop_cons, if_pos h]
  | cons a pre ih =>
    rw [List.cons_append, List.cons_append, serviceLoop_cons, serviceLoop_cons a]
    split
    · exact ih m
    · exact ih _

/-! ## Cutting a line at its first tab -/

theorem Index_char_none (s : Str) (c : Char) (h : c ∉ s) : Index s [c] = none := by
  induction s with
  | nil => simp [Index]
  | cons y s ih =>
    have hy : (c == y) = false := by
      have : c ≠ y := fun e => h (by simp [e])
      simpa using this
    have hs : c ∉ s := fun e => h (List.mem_cons_of_mem _ e)
    simp [Index, List.isPrefixOf, hy, ih hs]

theorem Index_char_first (a b : Str) (c : Char) (h : c ∉ a) :
    Index (a ++ c :: b) [c] = some a.length := by
  induction a with
  | nil => simp [Index, List.isPrefixOf]
  | cons y a ih =>
    have hy : (c == y) = false := by
      have : c ≠ y := fun e => h (by simp [e])
      simpa using this
    have ha : c ∉ a := fun e => h (List.mem_cons_of_mem _ e)
    simp [Index, List.isPrefixOf, hy, ih ha]

theorem lineFields_tab (a b : Str) (h : '\t' ∉ a) :
    lineFields (a ++ '\t' :: b) = (TrimSpace a, b) := by
  simp [lineFields, SplitN2, Index_char_first a b '\t' h]

theorem lineFields_no_tab (t : Str) (h : '\t' ∉ t) : lineFields t = (TrimSpace t, []) := by
  simp [lineFields, SplitN2, Index_char_none t '\t' h]

theorem mem_of_mem_TrimSpace (x : Char) (s : Str) (h : x ∈ TrimSpace s) : x ∈ s := by
  unfold TrimSpace at h
  exact (List.dropWhile_suffix isSpace).subset ((List.rdropWhile_prefix isSpace _).subset h)

theorem linePorts_no_tab (l : Str) (h : '\t' ∉ l) : linePorts l = [] := by
  unfold linePorts
  rw [lineFields_no_tab _ (fun e => h (mem_of_mem_TrimSpace _ _ e))]

/-! ## The service/URL aggregator: C8, C9, C10 -/

/-- C8: for every listing output and every service name, the list that
`GetServiceURLs` stores for the name is the concatenation, in line order, of the
lists `portsToURLs` parses from the lines of that service, with every later
duplicate removed; the name has no entry exactly when that concatenation is
empty.  The two lines `web\t0.0.0.0:80->80/tcp` and
`web\t0.0.0.0:443->443/tcp` give `web` the URLs of port 80 and port 443, in
that order. -/
theorem GetServiceURLs_union_first_seen (out stderr name : Str) :
    (∃ m, GetServiceURLs ⟨out, none, stderr⟩ = .ok m ∧
      mapGet m name
        = keepFirst (((Split out '\n').filter (fun l => decide (lineService l = name))).flatMap
            (fun l => portsToURLs (linePorts l))) ∧
      (mapLookup m name = none ↔
        ((Split out '\n').filter (fun l => decide (lineService l = name))).flatMap
          (fun l => portsToURLs (linePorts l)) = [])) ∧
    GetServiceURLs ⟨"web\t0.0.0.0:80->80/tcp\nweb\t0.0.0.0:443->443/tcp".toList, none, stderr⟩
      = .ok [("web".toList, ["http://localhost:80".toList, "http://localhost:443".toList])] := by
  refine ⟨⟨_, GetServiceURLs_ok out stderr, ?_, ?_⟩, ?_⟩
  · rw [serviceLoop_mapGet, ← addNew_empty]; rfl
  · rw [serviceLoop_lookup_none]; simp [mapLookup]
  · exact (GetServiceURLs_ok _ stderr).trans (congrArg Except.ok (by decide))

/-- C9: every service name present in the map `GetServiceURLs` returns has a
non-empty URL list; and a line of the output that is blank, or has no tab
character, or whose ports field yields no URLs, contributes nothing: the map
returned is the one built from the other lines. -/
theorem GetServiceURLs_entries_nonempty (out stderr : Str) :
    ∃ m, GetServiceURLs ⟨out, none, stderr⟩ = .ok m ∧
      (∀ name urls, mapLookup m name = some urls → urls ≠ []) ∧
      (∀ pre l post, Split out '\n' = pre ++ l :: post →
        (TrimSpace l = [] ∨ '\t' ∉ l ∨ portsToURLs (linePorts l) = []) →
          m = serviceLoop (pre ++ post) []) := by
  refine ⟨_, GetServiceURLs_ok out stderr, ?_, ?_⟩
  · exact serviceLoop_nonempty _ [] (fun name urls h => by simp [mapLookup] at h)
  · intro pre l post hl hc
    rw [hl]
    apply serviceLoop_skip
    rcases hc with h | h | h
    · exact linePorts_of_blank l h
    · rw [linePorts_no_tab l h]; rfl
    · exact h

/-- In the listing `"web\t0.0.0.0:80->80/tcp\n\ndb"` the second line is blank
and the third has no tab: the map returned has the single entry of `web`, as
from the first line alone, and its list is not empty. -/
theorem GetServiceURLs_entries_nonempty_witness :
    GetServiceURLs ⟨"web\t0.0.0.0:80->80/tcp\n\ndb".toList, none, []⟩
      = .ok (serviceLoop ["web\t0.0.0.0:80->80/tcp".toList] []) ∧
    serviceLoop ["web\t0.0.0.0:80->80/tcp".toList] []
      = [("web".toList, ["http://localhost:80".toList])] := by
  obtain ⟨m, hm, _, hskip⟩ := GetServiceURLs_entries_nonempty "web\t0.0.0.0:80->80/tcp\n\ndb".toList []
  have h1 := hskip ["web\t0.0.0.0:80->80/tcp".toList, []] "db".toList [] (by decide)
    (Or.inr (Or.inl (by decide)))
  have h2 : serviceLoop (["web\t0.0.0.0:80->80/tcp".toList, []] ++ []) []
      = serviceLoop ["web\t0.0.0.0:80->80/tcp".toList] [] := by decide
  rw [h1, h2] at hm
  exact ⟨hm, by decide⟩

/-- C10, as the code has it: an iteration of the loop of `GetServiceURLs`
works with the service name and the ports text of the line, which are read off
the white-space-trimmed line: when the trimmed line is `a`, a tab, `b`, with no
tab in `a`, the service name is `a` trimmed and the ports text is `b`; when the
trimmed line has no tab, the service name is the trimmed line and the ports
text is empty.  So a line with no tab has empty ports text, and a line with no
white space at its ends, nor at the ends of the text before its first tab, is
cut as it stands. -/
theorem GetServiceURLs_line_fields (l : Str) (rest : List Str) (m : URLMap) :
    (serviceLoop (l :: rest) m
      = if portsToURLs (linePorts l) = [] then serviceLoop rest m
        else serviceLoop rest (mapSet m (lineService l)
          (appendUnique (mapGet m (lineService l)) (portsToURLs (linePorts l))))) ∧
    (∀ a b, TrimSpace l = a ++ '\t' :: b → '\t' ∉ a →
      lineService l = TrimSpace a ∧ linePorts l = b) ∧
    ('\t' ∉ TrimSpace l → lineService l = TrimSpace l ∧ linePorts l = []) ∧
    ('\t' ∉ l → linePorts l = []) ∧
    (∀ a b, l = a ++ '\t' :: b → '\t' ∉ a → TrimSpace l = l → TrimSpace a = a →
      lineService l = a ∧ linePorts l = b) := by
  have hcut : ∀ a b, TrimSpace l = a ++ '\t' :: b → '\t' ∉ a →
      lineService l = TrimSpace a ∧ linePorts l = b := by
    intro a b hl ha
    unfold lineService linePorts
    rw [hl, lineFields_tab a b ha]
    exact ⟨rfl, rfl⟩
  refine ⟨serviceLoop_cons l rest m, hcut, ?_, linePorts_no_tab l, ?_⟩
  · intro h
    unfold lineService linePorts
    rw [lineFields_no_tab _ h, TrimSpace_idem]
    exact ⟨rfl, rfl⟩
  · intro a b hl ha ht hta
    have := hcut a b (ht.trans hl) ha
    rwa [hta] at this

/-- The line `web\t0.0.0.0:80->80/tcp` has no white space at its ends and is
cut at its tab into `web` and `0.0.0.0:80->80/tcp`. -/
theorem GetServiceURLs_line_fields_witness :
    lineService "web\t0.0.0.0:80->80/tcp".toList = "web".toList ∧
    linePorts "web\t0.0.0.0:80->80/tcp".toList = "0.0.0.0:80->80/tcp".toList :=
  (GetServiceURLs_line_fields "web\t0.0.0.0:80->80/tcp".toList [] []).2.2.2.2
    "web".toList "0.0.0.0:80->80/tcp".toList (by decide) (by decide) (by decide) (by decide)

/-- C10 as it is written fails on white space next to the first tab.  The
text before the first tab of `"\t0.0.0.0:80->80/tcp"` is empty and the text
after it is `0.0.0.0:80->80/tcp`, yet the service name read is
`0.0.0.0:80->80/tcp` and the ports text is empty, so that the line adds no URL
to the map.  The text before the first tab of `"web \t0.0.0.0:80->80/tcp"` is
`"web "`, and the service name read is `web`. -/
theorem GetServiceURLs_line_fields_verbatim_fails :
    (lineService "\t0.0.0.0:80->80/tcp".toList = "0.0.0.0:80->80/tcp".toList ∧
      linePorts "\t0.0.0.0:80->80/tcp".toList = [] ∧
      ¬ (∀ a b, "\t0.0.0.0:80->80/tcp".toList = a ++ '\t' :: b → '\t' ∉ a →
          lineService "\t0.0.0.0:80->80/tcp".toList = a ∧
            linePorts "\t0.0.0.0:80->80/tcp".toList = b)) ∧
    (lineService "web \t0.0.0.0:80->80/tcp".toList = "web".toList ∧
      ¬ (∀ a b, "web \t0.0.0.0:80->80/tcp".toList = a ++ '\t' :: b → '\t' ∉ a →
          lineService "web \t0.0.0.0:80->80/tcp".toList = a ∧
            linePorts "web \t0.0.0.0:80->80/tcp".toList = b)) ∧
    GetServiceURLs ⟨"web\t0.0.0.0:443->443/tcp\n\t0.0.0.0:80->80/tcp".toList, none, []⟩
      = .ok [("web".toList, ["http://localhost:443".toList])] := by
  refine ⟨⟨by decide, by decide, fun h => ?_⟩, ⟨by decide, fun h => ?_⟩, ?_⟩
  · have h1 := (h [] "0.0.0.0:80->80/tcp".toList (by decide) (by decide)).1
    revert h1
    decide
  · have h1 := (h "web ".toList "0.0.0.0:80->80/tcp".toList (by decide) (by decide)).1
    revert h1
    decide
  · exact congrArg Except.ok (by decide)

/-! ## The URL lines of the status report: C11, C12 -/

theorem declaredLoop_eq (services : List Str) (m : URLMap) :
    declaredLoop services m = services.flatMap (fun s => (mapGet m s).map (urlLine s)) := by
  induction services with
  | nil => rfl
  | cons s rest ih =>
    cases h : mapLookup m s with
    | none => simp [declaredLoop, h, ih, mapGet]
    | some urls => simp [declaredLoop, h, ih, mapGet]

theorem declaredLoop_skip (pre : List Str) (s : Str) (post : List Str) (m : URLMap)
    (h : mapLookup m s = none) :
    declaredLoop (pre ++ s :: post) m = declaredLoop (pre ++ post) m := by
  simp [declaredLoop_eq, mapGet, h]

theorem rangeLoop_eq (visited : URLMap) :
    rangeLoop visited = visited.flatMap (fun e => e.2.map (urlLine e.1)) := by
  induction visited with
  | nil => rfl
  | cons e rest ih =>
    obtain ⟨service, urls⟩ := e
    simp [rangeLoop, ih]

/-- C11: when the declared-services query succeeds with a non-empty list of
names and the listing query succeeds, the URL lines of the report (what is
printed after the heading) are the lines of the declared services in declared
order, each service giving one line for each URL stored for it in the map, in
the stored order; and a declared service with no entry in the map gives no
line, the lines being those for the other declared services. -/
theorem statusURLSection_declared_order (rangeOrder : URLMap → URLMap)
    (declared listing : CmdResult) (services : List Str) (m : URLMap)
    (hs : GetServices declared = .ok services) (hne : services ≠ [])
    (hm : GetServiceURLs listing = .ok m) :
    (statusURLSection rangeOrder declared listing).drop 1
      = services.flatMap (fun s => (mapGet m s).map (urlLine s)) ∧
    (m ≠ [] → statusURLSection rangeOrder declared listing
      = "  URLs     :\n".toList :: services.flatMap (fun s => (mapGet m s).map (urlLine s))) ∧
    (∀ pre s post, services = pre ++ s :: post → mapLookup m s = none →
      (statusURLSection rangeOrder declared listing).drop 1
        = (pre ++ post).flatMap (fun s => (mapGet m s).map (urlLine s))) := by
  have hlen : services.length > 0 := List.length_pos.2 hne
  have key : m ≠ [] → statusURLSection rangeOrder declared listing
      = "  URLs     :\n".toList ::
          services.flatMap (fun s => (mapGet m s).map (urlLine s)) := by
    intro h0
    have hl : m.length > 0 := List.length_pos.2 h0
    simp only [statusURLSection, hs, hm, hl, hlen, if_true, declaredLoop_eq]
  have main : (statusURLSection rangeOrder declared listing).drop 1
      = services.flatMap (fun s => (mapGet m s).map (urlLine s)) := by
    by_cases h0 : m = []
    · subst h0
      simp [statusURLSection, hs, hm, mapGet, mapLookup]
    · rw [key h0]; rfl
  refine ⟨main, key, ?_⟩
  intro pre s post hsp hnone
  rw [main, hsp, ← declaredLoop_eq, ← declaredLoop_eq, declaredLoop_skip pre s post m hnone]

/-- With the declared services `db`, `web`, `cache` and a listing that shows
`web` and then `db`, the report lists `db` before `web` and has no line for
`cache`. -/
theorem statusURLSection_declared_order_witness :
    (statusURLSection (fun m => m) ⟨"db\nweb\ncache\n".toList, none, []⟩
        ⟨"web\t0.0.0.0:80->80/tcp\ndb\t0.0.0.0:5432->5432/tcp".toList, none, []⟩).drop 1
      = ["    - db => http://localhost:5432\n".toList,
          "    - web => http://localhost:80\n".toList] :=
  (statusURLSection_declared_order (fun m => m) ⟨"db\nweb\ncache\n".toList, none, []⟩
      ⟨"web\t0.0.0.0:80->80/tcp\ndb\t0.0.0.0:5432->5432/tcp".toList, none, []⟩
      ["db".toList, "web".toList, "cache".toList]
      [("web".toList, ["http://localhost:80".toList]),
        ("db".toList, ["http://localhost:5432".toList])]
      (congrArg Except.ok (by decide)) (by decide) (congrArg Except.ok (by decide))).1.trans
    (by decide)

/-- C12, as the code has it: when the declared-services query fails or returns
no name and the listing query succeeds, the URL lines of the report are those
of the entries of the map in the order in which `range` visits them, each entry
giving one line for each of its URLs in the stored order.  That order is some
rearrangement of the entries, so the lines are a rearrangement of the lines in
insertion order; they are the lines in insertion order when the map holds at
most one service. -/
theorem statusURLSection_range_order (rangeOrder : URLMap → URLMap)
    (hperm : ∀ m, (rangeOrder m).Perm m)
    (declared listing : CmdResult) (m : URLMap)
    (hs : (∃ e, GetServices declared = .error e) ∨ GetServices declared = .ok [])
    (hm : GetServiceURLs listing = .ok m) :
    (statusURLSection rangeOrder declared listing).drop 1
      = (rangeOrder m).flatMap (fun e => e.2.map (urlLine e.1)) ∧
    ((statusURLSection rangeOrder declared listing).drop 1).Perm
      (m.flatMap (fun e => e.2.map (urlLine e.1))) ∧
    (m.length ≤ 1 → (statusURLSection rangeOrder declared listing).drop 1
      = m.flatMap (fun e => e.2.map (urlLine e.1))) := by
  have main : (statusURLSection rangeOrder declared listing).drop 1
      = (rangeOrder m).flatMap (fun e => e.2.map (urlLine e.1)) := by
    by_cases h0 : m = []
    · subst h0
      have : rangeOrder [] = [] := List.perm_nil.1 (hperm [])
      rcases hs with ⟨e, hs⟩ | hs <;> simp [statusURLSection, hs, hm, this]
    · have hl : m.length > 0 := List.length_pos.2 h0
      rcases hs with ⟨e, hs⟩ | hs <;>
        simp [statusURLSection, hs, hm, hl, rangeLoop_eq]
  refine ⟨main, ?_, ?_⟩
  · rw [main]
    exact (hperm m).flatMap_right _
  · intro hle
    rw [main]
    have : rangeOrder m = m := by
      match m, hle with
      | [], _ => exact List.perm_nil.1 (hperm [])
      | [a], _ => exact List.perm_singleton.1 (hperm [a])
      | _ :: _ :: _, hle => simp at hle
    rw [this]

/-- The declared-services query fails and the listing shows the single
service `web`: whatever the order of `range`, here the reverse one, the one
line of `web` is printed. -/
theorem statusURLSection_range_order_witness :
    (statusURLSection List.reverse ⟨[], some "exit status 1".toList, []⟩
        ⟨"web\t0.0.0.0:80->80/tcp".toList, none, []⟩).drop 1
      = ["    - web => http://localhost:80\n".toList] :=
  ((statusURLSection_range_order List.reverse (fun m => List.reverse_perm m)
      ⟨[], some "exit status 1".toList, []⟩ ⟨"web\t0.0.0.0:80->80/tcp".toList, none, []⟩
      [("web".toList, ["http://localhost:80".toList])]
      (Or.inl ⟨_, rfl⟩) (congrArg Except.ok (by decide))).2.2 (by decide)).trans (by decide)

/-- C12 as it is written fails, since `range` over a Go map need not visit the
entries in the order of their insertion.  The listing shows `web` and then
`db`, and the declared-services query fails; visiting the two entries of the
map in the reverse order, which is a rearrangement of them, prints the line of
`db` before the line of `web`. -/
theorem statusURLSection_insertion_order_fails :
    (∀ m : URLMap, (List.reverse m).Perm m) ∧
    GetServiceURLs ⟨"web\t0.0.0.0:80->80/tcp\ndb\t0.0.0.0:5432->5432/tcp".toList, none, []⟩
      = .ok [("web".toList, ["http://localhost:80".toList]),
          ("db".toList, ["http://localhost:5432".toList])] ∧
    (statusURLSection List.reverse ⟨[], some "exit status 1".toList, []⟩
        ⟨"web\t0.0.0.0:80->80/tcp\ndb\t0.0.0.0:5432->5432/tcp".toList, none, []⟩).drop 1
      = ["    - db => http://localhost:5432\n".toList,
          "    - web => http://localhost:80\n".toList] ∧
    (statusURLSection List.reverse ⟨[], some "exit status 1".toList, []⟩
        ⟨"web\t0.0.0.0:80->80/tcp\ndb\t0.0.0.0:5432->5432/tcp".toList, none, []⟩).drop 1
      ≠ ["    - web => http://localhost:80\n".toList,
          "    - db => http://localhost:5432\n".toList] := by
  refine ⟨fun m => List.reverse_perm m, congrArg Except.ok (by decide), by decide, by decide⟩

/-! ## Discovery: C13, C14 -/

theorem discoverLoop_eq (h : Host) (searchPath : Str) (entries : List DirEntry)
    (acc : List Project) :
    discoverLoop h searchPath entries acc
      = acc ++ (entries.filter (isProjectDir h searchPath)).map (projectOf h searchPath) := by
  induction entries generalizing acc with
  | nil => simp [discoverLoop]
  | cons e rest ih =>
    unfold discoverLoop
    cases hd : e.IsDir with
    | false => simp [hd, ih, isProjectDir, List.filter_cons]
    | true =>
      cases hp : HasPrefix e.Name dockerPrefix with
      | false => simp [hd, hp, ih, isProjectDir, List.filter_cons]
      | true =>
        cases hs : h.statNotExist (h.join (h.join searchPath e.Name) composeFile) with
        | true => simp [hd, hp, hs, ih, isProjectDir, List.filter_cons]
        | false => simp [hd, hp, hs, ih, isProjectDir, List.filter_cons, projectOf]

theorem Discover_ok (h : Host) (searchPath : Str) (entries : List DirEntry) :
    Discover h searchPath (.ok entries)
      = .ok ((entries.filter (isProjectDir h searchPath)).map (projectOf h searchPath)) := by
  simp [Discover, discoverLoop_eq]

theorem HasPrefix_iff (s pre : Str) : HasPrefix s pre = true ↔ ∃ rest, s = pre ++ rest := by
  unfold HasPrefix
  rw [List.isPrefixOf_iff_prefix]
  constructor
  · rintro ⟨t, ht⟩; exact ⟨t, ht.symm⟩
  · rintro ⟨t, ht⟩; exact ⟨t, ht.symm⟩

theorem TrimPrefix_append (pre rest : Str) : TrimPrefix (pre ++ rest) pre = rest := by
  have : HasPrefix (pre ++ rest) pre = true := (HasPrefix_iff _ _).2 ⟨rest, rfl⟩
  simp [TrimPrefix, this]

theorem ToLower_append (h : Host) (a b : Str) :
    ToLower h (a ++ b) = ToLower h a ++ ToLower h b := by
  simp [ToLower]

/-- C13, as the code has it: when the lower-cased names of the entries of the
listing are pairwise distinct, the projects returned by one `Discover` pass
have pairwise distinct names. -/
theorem Discover_names_distinct (h : Host) (searchPath : Str) (entries : List DirEntry)
    (hd : (entries.map (fun e => ToLower h e.Name)).Nodup) :
    ∃ projects, Discover h searchPath (.ok entries) = .ok projects ∧
      (projects.map Project.Name).Nodup := by
  refine ⟨_, Discover_ok h searchPath entries, ?_⟩
  rw [List.map_map]
  have hsub : (entries.filter (isProjectDir h searchPath)).Sublist entries :=
    List.filter_sublist entries
  refine List.Nodup.map_on ?_ ((List.Nodup.of_map _ hd).sublist hsub)
  intro x hx y hy hxy
  have hxp : HasPrefix x.Name dockerPrefix = true := by
    have := (List.mem_filter.1 hx).2
    simp [isProjectDir] at this
    exact this.1.2
  have hyp : HasPrefix y.Name dockerPrefix = true := by
    have := (List.mem_filter.1 hy).2
    simp [isProjectDir] at this
    exact this.1.2
  obtain ⟨rx, hrx⟩ := (HasPrefix_iff _ _).1 hxp
  obtain ⟨ry, hry⟩ := (HasPrefix_iff _ _).1 hyp
  have hname : ToLower h rx = ToLower h ry := by
    simpa [projectOf, hrx, hry, TrimPrefix_append] using hxy
  apply List.inj_on_of_nodup_map hd (hsub.subset hx) (hsub.subset hy)
  show ToLower h x.Name = ToLower h y.Name
  rw [hrx, hry, ToLower_append, ToLower_append, hname]

/-- The entries `docker-App`, `docker-web` and the plain file `notes` have
distinct lower-cased names; the two projects found are `app` and `web`. -/
theorem Discover_names_distinct_witness :
    ∃ projects,
      Discover plainHost "/srv".toList
          (.ok [⟨"docker-App".toList, true⟩, ⟨"docker-web".toList, true⟩,
            ⟨"notes".toList, false⟩]) = .ok projects ∧
        (projects.map Project.Name).Nodup :=
  Discover_names_distinct plainHost "/srv".toList
    [⟨"docker-App".toList, true⟩, ⟨"docker-web".toList, true⟩, ⟨"notes".toList, false⟩]
    (by decide)

/-- C13 as it is written fails on two directories whose names differ in letter
case only: the entries `docker-App` and `docker-app` have distinct names, both
hold a `docker-compose.yml`, and the two projects returned are both named
`app`. -/
theorem Discover_names_collide :
    (["docker-App".toList, "docker-app".toList] : List Str).Nodup ∧
    Discover plainHost "/srv".toList
        (.ok [⟨"docker-App".toList, true⟩, ⟨"docker-app".toList, true⟩])
      = .ok [{ Name := "app".toList, Path := "/srv/docker-App".toList,
               ComposePath := "/srv/docker-App/docker-compose.yml".toList,
               Services := [], Running := false, ServiceCount := 0 },
             { Name := "app".toList, Path := "/srv/docker-app".toList,
               ComposePath := "/srv/docker-app/docker-compose.yml".toList,
               Services := [], Running := false, ServiceCount := 0 }] ∧
    ¬ (["app".toList, "app".toList] : List Str).Nodup := by
  refine ⟨by decide, congrArg Except.ok (by decide), by decide⟩

/-- C14: the projects `Discover` returns are, in the order of the directory
listing, the records made of the entries that are directories, have a name
starting with `"docker-"`, and whose `docker-compose.yml` is not reported
missing.  The `Name` of each is the entry name without the prefix `"docker-"`,
lower-cased, its `Path` is the search path joined with the entry name, and its
`ComposePath` is its `Path` joined with `"docker-compose.yml"`. -/
theorem Discover_projects (h : Host) (searchPath : Str) (entries : List DirEntry) :
    ∃ projects, Discover h searchPath (.ok entries) = .ok projects ∧
      projects = (entries.filter (isProjectDir h searchPath)).map (projectOf h searchPath) ∧
      (projects.map Project.Path).Sublist (entries.map (fun e => h.join searchPath e.Name)) ∧
      ∀ p ∈ projects, ∃ e ∈ entries, e.IsDir = true ∧
        (∃ rest, e.Name = dockerPrefix ++ rest ∧ p.Name = ToLower h rest) ∧
        h.statNotExist p.ComposePath = false ∧
        p.Path = h.join searchPath e.Name ∧
        p.ComposePath = h.join p.Path composeFile := by
  refine ⟨_, Discover_ok h searchPath entries, rfl, ?_, ?_⟩
  · rw [List.map_map]
    exact (List.filter_sublist entries).map _
  · intro p hp
    obtain ⟨e, he, rfl⟩ := List.mem_map.1 hp
    have hk := (List.mem_filter.1 he).2
    simp [isProjectDir] at hk
    obtain ⟨rest, hrest⟩ := (HasPrefix_iff _ _).1 hk.1.2
    refine ⟨e, (List.mem_filter.1 he).1, hk.1.1, ⟨rest, hrest, ?_⟩, hk.2, rfl, rfl⟩
    simp [projectOf, hrest, TrimPrefix_append]

/-! ## The two status variants: C15 -/

/-- C15: for every outcome of the query, failed or not, `GetStatus` and
`GetStatusDetailed` return the same running flag and the same count. -/
theorem status_variants_agree (r : CmdResult) :
    (GetStatus r).1 = (GetStatusDetailed r).1 ∧
    (GetStatus r).2.1 = (GetStatusDetailed r).2.1 := by
  obtain ⟨out, err, stderr⟩ := r
  cases err <;> exact ⟨rfl, rfl⟩

/-! ## The dashboard: C16 -/

theorem selectionInBounds_congr (m m' : Model) (hp : m'.projects = m.projects)
    (hs : m'.selected = m.selected) (h : selectionInBounds m) : selectionInBounds m' := by
  unfold selectionInBounds at h ⊢
  rw [hp, hs]
  exact h

theorem runOnSelected_spec (m : Model) (opErr : Option Str) (done : Str)
    (h : selectionInBounds m) :
    ∃ m', runOnSelected m opErr done = some m' ∧ m'.projects = m.projects ∧
      m'.selected = m.selected := by
  unfold runOnSelected
  by_cases hlt : m.selected < (m.projects.length : Int)
  · rw [if_pos hlt]
    have hne : m.projects ≠ [] := by
      intro e
      have h0 := h.1 e
      rw [e, h0] at hlt
      simp at hlt
    have hb := h.2 hne
    have hnn : ¬ m.selected < 0 := by omega
    rw [if_neg hnn]
    have hidx : m.selected.toNat < m.projects.length := by omega
    rw [List.get?_eq_get hidx]
    cases opErr <;> exact ⟨_, rfl, rfl, rfl⟩
  · rw [if_neg hlt]
    exact ⟨m, rfl, rfl, rfl⟩

theorem Update_up (m : Model) (name : Str) (opErr : Option Str)
    (h : name = "up".toList ∨ name = "k".toList) :
    Update m (Msg.key name) opErr
      = some ({ m with selected := if m.selected > 0 then m.selected - 1 else m.selected },
          Cmd.none) := by
  have h1 : ¬ (name = "ctrl+c".toList ∨ name = "q".toList) := by
    rcases h with h | h <;> subst h <;> decide
  simp only [Update]
  rw [if_neg h1, if_pos h]
  by_cases hs : m.selected > 0 <;> simp [hs]

theorem Update_down (m : Model) (name : Str) (opErr : Option Str)
    (h : name = "down".toList ∨ name = "j".toList) :
    Update m (Msg.key name) opErr
      = some ({ m with selected :=
                  if m.selected < (m.projects.length : Int) - 1 then m.selected + 1
                  else m.selected },
          Cmd.none) := by
  have h1 : ¬ (name = "ctrl+c".toList ∨ name = "q".toList) := by
    rcases h with h | h <;> subst h <;> decide
  have h2 : ¬ (name = "up".toList ∨ name = "k".toList) := by
    rcases h with h | h <;> subst h <;> decide
  simp only [Update]
  rw [if_neg h1, if_neg h2, if_pos h]
  by_cases hs : m.selected < (m.projects.length : Int) - 1 <;> simp [hs]

/-- Whatever the message, `Update` returns a model with the same projects,
whose selection is the old one, or one less when the old one is positive, or
one more when the old one is before the last index. -/
theorem Update_step (m : Model) (msg : Msg) (opErr : Option Str)
    (h : selectionInBounds m) :
    ∃ m' cmd, Update m msg opErr = some (m', cmd) ∧ m'.projects = m.projects ∧
      (m'.selected = m.selected ∨
        (m.selected > 0 ∧ m'.selected = m.selected - 1) ∨
        (m.selected < (m.projects.length : Int) - 1 ∧ m'.selected = m.selected + 1)) := by
  cases msg with
  | windowSize w ht => exact ⟨_, _, rfl, rfl, Or.inl rfl⟩
  | other => exact ⟨_, _, rfl, rfl, Or.inl rfl⟩
  | key name =>
    by_cases h1 : name = "ctrl+c".toList ∨ name = "q".toList
    · exact ⟨m, Cmd.quit, by simp only [Update]; rw [if_pos h1], rfl, Or.inl rfl⟩
    by_cases h2 : name = "up".toList ∨ name = "k".toList
    · refine ⟨_, _, Update_up m name opErr h2, rfl, ?_⟩
      by_cases hs : m.selected > 0
      · exact Or.inr (Or.inl ⟨hs, by simp [hs]⟩)
      · exact Or.inl (by simp [hs])
    by_cases h3 : name = "down".toList ∨ name = "j".toList
    · refine ⟨_, _, Update_down m name opErr h3, rfl, ?_⟩
      by_cases hs : m.selected < (m.projects.length : Int) - 1
      · exact Or.inr (Or.inr ⟨hs, by simp [hs]⟩)
      · exact Or.inl (by simp [hs])
    by_cases h4 : name = "s".toList
    · obtain ⟨m', hr, hp, hsel⟩ := runOnSelected_spec m opErr "démarré".toList h
      refine ⟨m', Cmd.none, ?_, hp, Or.inl hsel⟩
      simp only [Update]
      rw [if_neg h1, if_neg h2, if_neg h3, if_pos h4, hr]
      rfl
    by_cases h5 : name = "d".toList
    · obtain ⟨m', hr, hp, hsel⟩ := runOnSelected_spec m opErr "arrêté".toList h
      refine ⟨m', Cmd.none, ?_, hp, Or.inl hsel⟩
      simp only [Update]
      rw [if_neg h1, if_neg h2, if_neg h3, if_neg h4, if_pos h5, hr]
      rfl
    by_cases h6 : name = "r".toList
    · obtain ⟨m', hr, hp, hsel⟩ := runOnSelected_spec m opErr "redémarré".toList h
      refine ⟨m', Cmd.none, ?_, hp, Or.inl hsel⟩
      simp only [Update]
      rw [if_neg h1, if_neg h2, if_neg h3, if_neg h4, if_neg h5, if_pos h6, hr]
      rfl
    · refine ⟨m, Cmd.none, ?_, rfl, Or.inl rfl⟩
      simp only [Update]
      rw [if_neg h1, if_neg h2, if_neg h3, if_neg h4, if_neg h5, if_neg h6]

/-- C16: the selection never leaves the list.  The model `NewModel` builds has
its selection in bounds (0 for an empty list, an index from 0 to
`len(projects) - 1` otherwise); and for every model with its selection in
bounds and every message, `Update` returns a model (it does not stop on an
index out of range) with its selection in bounds and the same list of
projects.  The keys `up` and `k` lower the selection by one unless it is 0; the
keys `down` and `j` raise it by one unless it is the last index (or the list is
empty). -/
theorem Update_selection_in_bounds (m : Model) (msg : Msg) (opErr : Option Str)
    (h : selectionInBounds m) :
    (∀ projects manager, selectionInBounds (NewModel projects manager)) ∧
    ∃ m' cmd, Update m msg opErr = some (m', cmd) ∧ selectionInBounds m' ∧
      m'.projects = m.projects ∧
      ((msg = Msg.key "up".toList ∨ msg = Msg.key "k".toList) →
        m'.selected = if m.selected = 0 then 0 else m.selected - 1) ∧
      ((msg = Msg.key "down".toList ∨ msg = Msg.key "j".toList) →
        m'.selected
          = if m.selected = (m.projects.length : Int) - 1 ∨ m.projects = [] then m.selected
            else m.selected + 1) := by
  constructor
  · intro projects manager
    unfold selectionInBounds NewModel
    refine ⟨fun _ => rfl, fun hne => ?_⟩
    have : 0 < projects.length := List.length_pos.2 hne
    simp only
    omega
  obtain ⟨m', cmd, hu, hp, hsel⟩ := Update_step m msg opErr h
  have hinv : selectionInBounds m' := by
    unfold selectionInBounds at h ⊢
    rw [hp]
    refine ⟨fun e => ?_, fun hne => ?_⟩
    · have h0 := h.1 e
      rw [e] at hsel
      simp only [List.length_nil] at hsel
      omega
    · have hb := h.2 hne
      omega
  refine ⟨m', cmd, hu, hinv, hp, ?_, ?_⟩
  · intro hk
    have hname : ∃ name, msg = Msg.key name ∧ (name = "up".toList ∨ name = "k".toList) := by
      rcases hk with hk | hk
      · exact ⟨_, hk, Or.inl rfl⟩
      · exact ⟨_, hk, Or.inr rfl⟩
    obtain ⟨name, rfl, hn⟩ := hname
    rw [Update_up m name opErr hn] at hu
    have hm' : m' = { m with selected := if m.selected > 0 then m.selected - 1 else m.selected } :=
      (Prod.mk.inj (Option.some.inj hu)).1.symm
    have hnn : 0 ≤ m.selected := by
      by_cases e : m.projects = []
      · rw [h.1 e]
      · exact (h.2 e).1
    rw [hm']
    show (if m.selected > 0 then m.selected - 1 else m.selected) = _
    by_cases h0 : m.selected = 0
    · simp [h0]
    · have : m.selected > 0 := by omega
      simp [h0, this]
  · intro hk
    have hname : ∃ name, msg = Msg.key name ∧ (name = "down".toList ∨ name = "j".toList) := by
      rcases hk with hk | hk
      · exact ⟨_, hk, Or.inl rfl⟩
      · exact ⟨_, hk, Or.inr rfl⟩
    obtain ⟨name, rfl, hn⟩ := hname
    rw [Update_down m name opErr hn] at hu
    have hm' : m' = { m with selected :=
        if m.selected < (m.projects.length : Int) - 1 then m.selected + 1 else m.selected } :=
      (Prod.mk.inj (Option.some.inj hu)).1.symm
    rw [hm']
    show (if m.selected < (m.projects.length : Int) - 1 then m.selected + 1 else m.selected) = _
    by_cases e : m.projects = []
    · have h0 := h.1 e
      simp [e, h0]
    · have hb := h.2 e
      by_cases hl : m.selected = (m.projects.length : Int) - 1
      · have : ¬ m.selected < (m.projects.length : Int) - 1 := by omega
        simp [hl, e]
      · have : m.selected < (m.projects.length : Int) - 1 := by omega
        simp [hl, e, this]

/-- The model `NewModel` builds for two projects has its selection, 0, in
bounds; the key `down` moves the selection to 1, the last index, and leaves the
two projects in place. -/
theorem Update_selection_in_bounds_witness :
    selectionInBounds
        (NewModel [projectOf plainHost "/srv".toList ⟨"docker-app".toList, true⟩,
          projectOf plainHost "/srv".toList ⟨"docker-web".toList, true⟩] ⟨"/srv".toList⟩) ∧
    ∃ m' cmd,
      Update
          (NewModel [projectOf plainHost "/srv".toList ⟨"docker-app".toList, true⟩,
            projectOf plainHost "/srv".toList ⟨"docker-web".toList, true⟩] ⟨"/srv".toList⟩)
          (Msg.key "down".toList) none = some (m', cmd) ∧
        selectionInBounds m' ∧ m'.projects.length = 2 ∧ m'.selected = 1 :=
  have hyp : selectionInBounds
      (NewModel [projectOf plainHost "/srv".toList ⟨"docker-app".toList, true⟩,
        projectOf plainHost "/srv".toList ⟨"docker-web".toList, true⟩] ⟨"/srv".toList⟩) :=
    ⟨fun e => (by cases e), fun _ => (by decide)⟩
  match (Update_selection_in_bounds _ (Msg.key "down".toList) none hyp).2 with
  | ⟨m', cmd, hu, hinv, hp, _, hdown⟩ =>
    ⟨hyp, m', cmd, hu, hinv, by rw [hp]; rfl, (hdown (Or.inl rfl)).trans (by decide)⟩

end DockerManager
